/-
Verification of the ML-KEM-768 implementation (FiloSottile/mlkem768).

Shallow embedding of `mlkem768.go` and `xwing/xwing.go`.  Machine integers
(uint16 / uint32 / uint64) are modelled as `Nat` with explicit `% 2^w`
wrapping at each operation where the Go code can wrap; unsigned subtraction
`a - b` on a w-bit type is modelled as `(a + (2^w - b % 2^w)) % 2^w`.
Byte strings (`[]byte`) are `List Nat` whose elements are < 256 (carried as
hypotheses where it matters); polynomial arrays (`[256]fieldElement`) are
functions `Nat → Nat`, meaningful on indices < 256.  External library calls
(SHA3 / SHAKE from golang.org/x/crypto/sha3, crypto/ecdh) are parameters of
the embedded functions.
-/
import Mathlib

namespace MLKEM

/-- q = 3329, the ML-KEM field modulus (`const q` in mlkem768.go). -/
def q : ℕ := 3329

/-- Go `fieldReduceOnce` from mlkem768.go: reduces a value `a < 2q` held in a
uint16.  `x := a - q; x += (x >> 15) * q`. -/
def fieldReduceOnce (a : ℕ) : ℕ :=
  let x := (a + (2 ^ 16 - q % 2 ^ 16)) % 2 ^ 16
  (x + (x >>> 15) * q) % 2 ^ 16

/-- Go `fieldAdd` from mlkem768.go: `x := uint16(a + b); return fieldReduceOnce(x)`. -/
def fieldAdd (a b : ℕ) : ℕ := fieldReduceOnce ((a + b) % 2 ^ 16)

/-- Go `fieldSub` from mlkem768.go: `x := uint16(a - b + q); return fieldReduceOnce(x)`. -/
def fieldSub (a b : ℕ) : ℕ :=
  fieldReduceOnce (((a + (2 ^ 16 - b % 2 ^ 16)) % 2 ^ 16 + q) % 2 ^ 16)

/-- Go `barrettMultiplier = 5039`, `barrettShift = 24` from mlkem768.go. -/
def barrettMultiplier : ℕ := 5039

def barrettShift : ℕ := 24

/-- Go `fieldReduce` from mlkem768.go: Barrett reduction of a value `a < q²`
held in a uint32.
`quotient := uint32((uint64(a) * barrettMultiplier) >> barrettShift);
 return fieldReduceOnce(uint16(a - quotient*q))`. -/
def fieldReduce (a : ℕ) : ℕ :=
  let quotient := ((a * barrettMultiplier) >>> barrettShift) % 2 ^ 32
  fieldReduceOnce (((a + (2 ^ 32 - (quotient * q) % 2 ^ 32)) % 2 ^ 32) % 2 ^ 16)

/-- Go `fieldMul` from mlkem768.go: `x := uint32(a) * uint32(b); return fieldReduce(x)`. -/
def fieldMul (a b : ℕ) : ℕ := fieldReduce ((a * b) % 2 ^ 32)

/-- Go `fieldReduceOnce` computes `a % q` on its documented domain `a < 2q`. -/
theorem fieldReduceOnce_eq_mod {a : ℕ} (h : a < 2 * q) : fieldReduceOnce a = a % q := by
  simp only [q] at h ⊢
  unfold fieldReduceOnce q
  simp only [Nat.shiftRight_eq_div_pow]
  rcases Nat.lt_or_ge a 3329 with ha | ha
  · have h1 : (a + (2 ^ 16 - 3329 % 2 ^ 16)) % 2 ^ 16 = a + 62207 := by omega
    rw [h1]
    have h2 : (a + 62207) / 2 ^ 15 = 1 := by omega
    rw [h2]
    omega
  · have h1 : (a + (2 ^ 16 - 3329 % 2 ^ 16)) % 2 ^ 16 = a - 3329 := by omega
    rw [h1]
    have h2 : (a - 3329) / 2 ^ 15 = 0 := by omega
    rw [h2]
    omega

theorem fieldReduceOnce_lt {a : ℕ} (h : a < 2 * q) : fieldReduceOnce a < q := by
  rw [fieldReduceOnce_eq_mod h]
  exact Nat.mod_lt _ (by simp only [q]; omega)

theorem fieldAdd_eq_mod {a b : ℕ} (ha : a < q) (hb : b < q) :
    fieldAdd a b = (a + b) % q := by
  unfold fieldAdd
  rw [Nat.mod_eq_of_lt (by simp only [q] at ha hb; omega)]
  exact fieldReduceOnce_eq_mod (by simp only [q] at *; omega)

theorem fieldAdd_lt {a b : ℕ} (ha : a < q) (hb : b < q) : fieldAdd a b < q := by
  rw [fieldAdd_eq_mod ha hb]
  exact Nat.mod_lt _ (by simp only [q]; omega)

theorem fieldSub_eq_mod {a b : ℕ} (ha : a < q) (hb : b < q) :
    fieldSub a b = (a + q - b) % q := by
  unfold fieldSub
  simp only [q] at ha hb ⊢
  have h1 : ((a + (2 ^ 16 - b % 2 ^ 16)) % 2 ^ 16 + 3329) % 2 ^ 16 = a + 3329 - b := by
    omega
  rw [h1]
  rw [fieldReduceOnce_eq_mod (by simp only [q]; omega)]
  simp only [q]

theorem fieldSub_lt {a b : ℕ} (ha : a < q) (hb : b < q) : fieldSub a b < q := by
  rw [fieldSub_eq_mod ha hb]
  exact Nat.mod_lt _ (by simp only [q]; omega)

/-- Barrett reduction is exact: `fieldReduce` computes `a % q` for `a < q²`. -/
theorem fieldReduce_eq_mod {a : ℕ} (h : a < q * q) : fieldReduce a = a % q := by
  simp only [q] at h
  unfold fieldReduce barrettMultiplier barrettShift
  simp only [Nat.shiftRight_eq_div_pow]
  have hdm := Nat.div_add_mod (a * 5039) (2 ^ 24)
  have hmlt : (a * 5039) % 2 ^ 24 < 2 ^ 24 := Nat.mod_lt _ (by norm_num)
  set Q := a * 5039 / 2 ^ 24 with hQdef
  have hb1 : 3329 * Q ≤ a := by omega
  have hb2 : a < 3329 * Q + 6658 := by omega
  have harg : ((a + (2 ^ 32 - (Q % 2 ^ 32 * q) % 2 ^ 32)) % 2 ^ 32) % 2 ^ 16
      = a - Q * 3329 := by
    simp only [q]
    omega
  rw [harg]
  rw [fieldReduceOnce_eq_mod (by simp only [q]; omega)]
  simp only [q]
  omega

theorem fieldMul_eq_mod {a b : ℕ} (ha : a < q) (hb : b < q) :
    fieldMul a b = (a * b) % q := by
  unfold fieldMul
  have h : a * b < q * q := by
    simp only [q] at *
    exact Nat.mul_lt_mul_of_lt_of_lt ha hb
  rw [Nat.mod_eq_of_lt (lt_trans h (by simp only [q]; norm_num))]
  exact fieldReduce_eq_mod h

theorem fieldMul_lt {a b : ℕ} (ha : a < q) (hb : b < q) : fieldMul a b < q := by
  rw [fieldMul_eq_mod ha hb]
  exact Nat.mod_lt _ (by simp only [q]; omega)

/-- C2: for every pair of field elements `(a, b)` with `a < q` and `b < q`,
`fieldAdd(a, b) = (a + b) mod q`, `fieldSub(a, b) = (a - b + q) mod q`
(written `(a + q - b) mod q` over ℕ), and `fieldMul(a, b) = (a * b) mod q`,
each result lying in `[0, q)`. -/
theorem fieldArith_correct (a b : ℕ) (ha : a < q) (hb : b < q) :
    fieldAdd a b = (a + b) % q ∧ fieldSub a b = (a + q - b) % q ∧
    fieldMul a b = (a * b) % q ∧
    fieldAdd a b < q ∧ fieldSub a b < q ∧ fieldMul a b < q :=
  ⟨fieldAdd_eq_mod ha hb, fieldSub_eq_mod ha hb, fieldMul_eq_mod ha hb,
   fieldAdd_lt ha hb, fieldSub_lt ha hb, fieldMul_lt ha hb⟩

/-- Witness for `fieldArith_correct` at `a = 3000`, `b = 2022`. -/
theorem fieldArith_correct_witness :
    (3000 : ℕ) < q ∧ (2022 : ℕ) < q ∧
    (fieldAdd 3000 2022 = (3000 + 2022) % q ∧
     fieldSub 3000 2022 = (3000 + q - 2022) % q ∧
     fieldMul 3000 2022 = (3000 * 2022) % q ∧
     fieldAdd 3000 2022 < q ∧ fieldSub 3000 2022 < q ∧ fieldMul 3000 2022 < q) :=
  ⟨by decide, by decide, fieldArith_correct 3000 2022 (by decide) (by decide)⟩

/-- Go `compress` from mlkem768.go: maps a field element to `[0, 2^d)` by
rounding `x·2^d / q` to nearest (half up), computed branch-free in uint32.
`dividend := uint32(x) << d;
 quotient := uint32(uint64(dividend) * barrettMultiplier >> barrettShift);
 remainder := dividend - quotient*q;
 quotient += (q/2 - remainder) >> 31 & 1;
 quotient += (q + q/2 - remainder) >> 31 & 1;
 return uint16(quotient & ((1 << d) - 1))`. -/
def compress (x d : ℕ) : ℕ :=
  let dividend := (x <<< d) % 2 ^ 32
  let quotient := ((dividend * barrettMultiplier) >>> barrettShift) % 2 ^ 32
  let remainder := (dividend + (2 ^ 32 - (quotient * q) % 2 ^ 32)) % 2 ^ 32
  let quotient := (quotient +
    (((q / 2 + (2 ^ 32 - remainder)) % 2 ^ 32) >>> 31) % 2) % 2 ^ 32
  let quotient := (quotient +
    (((q + q / 2 + (2 ^ 32 - remainder)) % 2 ^ 32) >>> 31) % 2) % 2 ^ 32
  (quotient &&& (2 ^ d - 1)) % 2 ^ 16

/-- Go `decompress` from mlkem768.go: maps `y ∈ [0, 2^d)` to a field element by
rounding `y·q / 2^d` to nearest (half up).
`dividend := uint32(y) * q; quotient := dividend >> d;
 quotient += dividend >> (d - 1) & 1; return fieldElement(quotient)`. -/
def decompress (y d : ℕ) : ℕ :=
  let dividend := (y * q) % 2 ^ 32
  let quotient := (dividend >>> d + (dividend >>> (d - 1)) % 2) % 2 ^ 32
  quotient % 2 ^ 16

/-- Bounded checker: `checkBall p n = true` iff `p` holds below `n`.
Tail-structured so that kernel evaluation does not nest deeply. -/
def checkBall (p : ℕ → Bool) : ℕ → Bool
  | 0 => true
  | n + 1 => p n && checkBall p n

theorem checkBall_sound (p : ℕ → Bool) :
    ∀ n, checkBall p n = true → ∀ y, y < n → p y = true := by
  intro n
  induction n with
  | zero => intro _ y hy; omega
  | succ m ih =>
    intro h y hy
    rw [checkBall, Bool.and_eq_true] at h
    rcases Nat.lt_or_ge y m with h2 | h2
    · exact ih h.2 y h2
    · have hme : y = m := by omega
      rw [hme]; exact h.1

set_option maxRecDepth 40000 in
/-- C3: for every `d ∈ {1, 4, 10}`, `compress` is a left inverse of
`decompress` on `[0, 2^d)`, and `compress` lands in `[0, 2^d)` on `[0, q)`. -/
theorem compress_decompress_correct :
    (∀ y < 2 ^ 1, compress (decompress y 1) 1 = y) ∧
    (∀ y < 2 ^ 4, compress (decompress y 4) 4 = y) ∧
    (∀ y < 2 ^ 10, compress (decompress y 10) 10 = y) ∧
    (∀ a < q, compress a 1 < 2 ^ 1) ∧
    (∀ a < q, compress a 4 < 2 ^ 4) ∧
    (∀ a < q, compress a 10 < 2 ^ 10) := by
  refine ⟨fun y hy => ?_, fun y hy => ?_, fun y hy => ?_,
    fun a ha => ?_, fun a ha => ?_, fun a ha => ?_⟩
  · simpa using checkBall_sound (fun z => compress (decompress z 1) 1 == z) (2 ^ 1)
      (by decide) y hy
  · simpa using checkBall_sound (fun z => compress (decompress z 4) 4 == z) (2 ^ 4)
      (by decide) y hy
  · simpa using checkBall_sound (fun z => compress (decompress z 10) 10 == z) (2 ^ 10)
      (by decide) y hy
  · simpa using checkBall_sound (fun z => decide (compress z 1 < 2 ^ 1)) q
      (by decide) a ha
  · simpa using checkBall_sound (fun z => decide (compress z 4 < 2 ^ 4)) q
      (by decide) a ha
  · simpa using checkBall_sound (fun z => decide (compress z 10 < 2 ^ 10)) q
      (by decide) a ha

/-- Witness for `compress_decompress_correct` at `y = 777`, `a = 1234`, `d = 10`. -/
theorem compress_decompress_correct_witness :
    ((777 : ℕ) < 2 ^ 10 ∧ compress (decompress 777 10) 10 = 777) ∧
    ((1234 : ℕ) < q ∧ compress 1234 10 < 2 ^ 10) :=
  ⟨⟨by decide, compress_decompress_correct.2.2.1 777 (by decide)⟩,
   ⟨by decide, compress_decompress_correct.2.2.2.2.2 1234 (by decide)⟩⟩

/-- Go `var gammas` from mlkem768.go: the values `ζ^(2·BitRev7(i)+1) mod q`. -/
def gammas : List ℕ := [17, 3312, 2761, 568, 583, 2746, 2649, 680, 1637, 1692, 723, 2606, 2288, 1041, 1100, 2229, 1409, 1920, 2662, 667, 3281, 48, 233, 3096, 756, 2573, 2156, 1173, 3015, 314, 3050, 279, 1703, 1626, 1651, 1678, 2789, 540, 1789, 1540, 1847, 1482, 952, 2377, 1461, 1868, 2687, 642, 939, 2390, 2308, 1021, 2437, 892, 2388, 941, 733, 2596, 2337, 992, 268, 3061, 641, 2688, 1584, 1745, 2298, 1031, 2037, 1292, 3220, 109, 375, 2954, 2549, 780, 2090, 1239, 1645, 1684, 1063, 2266, 319, 3010, 2773, 556, 757, 2572, 2099, 1230, 561, 2768, 2466, 863, 2594, 735, 2804, 525, 1092, 2237, 403, 2926, 1026, 2303, 1143, 2186, 2150, 1179, 2775, 554, 886, 2443, 1722, 1607, 1212, 2117, 1874, 1455, 1029, 2300, 2110, 1219, 2935, 394, 885, 2444, 2154, 1175]

/-- Go `var zetas` from mlkem768.go: the values `ζ^BitRev7(k) mod q`. -/
def zetas : List ℕ := [1, 1729, 2580, 3289, 2642, 630, 1897, 848, 1062, 1919, 193, 797, 2786, 3260, 569, 1746, 296, 2447, 1339, 1476, 3046, 56, 2240, 1333, 1426, 2094, 535, 2882, 2393, 2879, 1974, 821, 289, 331, 3253, 1756, 1197, 2304, 2277, 2055, 650, 1977, 2513, 632, 2865, 33, 1320, 1915, 2319, 1435, 807, 452, 1438, 2868, 1534, 2402, 2647, 2617, 1481, 648, 2474, 3110, 1227, 910, 17, 2761, 583, 2649, 1637, 723, 2288, 1100, 1409, 2662, 3281, 233, 756, 2156, 3015, 3050, 1703, 1651, 2789, 1789, 1847, 952, 1461, 2687, 939, 2308, 2437, 2388, 733, 2337, 268, 641, 1584, 2298, 2037, 3220, 375, 2549, 2090, 1645, 1063, 319, 2773, 757, 2099, 561, 2466, 2594, 2804, 1092, 403, 1026, 1143, 2150, 2775, 886, 1722, 1212, 1874, 1029, 2110, 2935, 885, 2154]

/-- Go `BitRev7` from mlkem768_test.go: 7-bit bit reversal, computed by shifts
and masks on a uint8. -/
def bitRev7 (x : ℕ) : ℕ :=
  ((x >>> 6 &&& 0b0000001) ||| (x >>> 4 &&& 0b0000010) |||
   (x >>> 2 &&& 0b0000100) ||| (x &&& 0b0001000) |||
   ((x <<< 2) % 2 ^ 8 &&& 0b0010000) ||| ((x <<< 4) % 2 ^ 8 &&& 0b0100000) |||
   ((x <<< 6) % 2 ^ 8 &&& 0b1000000))

set_option maxRecDepth 10000 in
/-- C9: for every `k < 128`, `zetas[k] = 17^BitRev7(k) mod 3329` and
`gammas[k] = 17^(2·BitRev7(k)+1) mod 3329`. -/
theorem zetas_gammas_correct :
    ∀ k < 128, zetas.getD k 0 = 17 ^ bitRev7 k % q ∧
      gammas.getD k 0 = 17 ^ (2 * bitRev7 k + 1) % q := by
  intro k hk
  have h := checkBall_sound (fun z => (zetas.getD z 0 == 17 ^ bitRev7 z % q) &&
    (gammas.getD z 0 == 17 ^ (2 * bitRev7 z + 1) % q)) 128 (by decide) k hk
  simp only [Bool.and_eq_true, beq_iff_eq] at h
  exact h

/-- Witness for `zetas_gammas_correct` at `k = 77`. -/
theorem zetas_gammas_correct_witness :
    (77 : ℕ) < 128 ∧ (zetas.getD 77 0 = 17 ^ bitRev7 77 % q ∧
      gammas.getD 77 0 = 17 ^ (2 * bitRev7 77 + 1) % q) :=
  ⟨by decide, zetas_gammas_correct 77 (by decide)⟩

/-- Disjoint bitwise or is addition: `(a <<< n) ||| b = a·2^n + b` for `b < 2^n`. -/
theorem shiftLeft_lor_eq_add {a b n : ℕ} (h : b < 2 ^ n) :
    (a <<< n) ||| b = a * 2 ^ n + b := by
  apply Nat.eq_of_testBit_eq
  intro i
  rw [Nat.testBit_lor, Nat.testBit_shiftLeft, Nat.mul_comm a (2 ^ n),
    Nat.testBit_mul_pow_two_add _ h]
  rcases Nat.lt_or_ge i n with hi | hi
  · simp [hi, Nat.not_le_of_lt hi]
  · have hb : b.testBit i = false :=
      Nat.testBit_lt_two_pow (lt_of_lt_of_le h (Nat.pow_le_pow_right (by norm_num) hi))
    simp [hb, hi]

/-- The 24-bit group read by `polyByteDecode` for coefficient pair `p`:
`d := uint32(b[0]) | uint32(b[1])<<8 | uint32(b[2])<<16` on the slice
advanced by `3p` bytes. -/
def byteDecodeGroup (b : List ℕ) (p : ℕ) : ℕ :=
  b.getD (3 * p) 0 ||| b.getD (3 * p + 1) 0 <<< 8 ||| b.getD (3 * p + 2) 0 <<< 16

/-- Go `polyByteDecode` from mlkem768.go (ByteDecode₁₂ of FIPS 203 (DRAFT),
Algorithm 5): rejects inputs whose length differs from `encodingSize12 = 384`,
then decodes two coefficients out of each 3-byte group:
`f[i] = fieldReduceOnce(uint16(d & 0b1111_1111_1111));
 f[i+1] = fieldReduceOnce(uint16(d >> 12))`. -/
def polyByteDecode (b : List ℕ) : Option (ℕ → ℕ) :=
  if b.length = 384 then
    some (fun i =>
      if i < 256 then
        if i % 2 = 0 then
          fieldReduceOnce ((byteDecodeGroup b (i / 2) &&& 0b111111111111) % 2 ^ 16)
        else
          fieldReduceOnce ((byteDecodeGroup b (i / 2) >>> 12) % 2 ^ 16)
      else 0)
  else none

set_option maxRecDepth 10000 in
/-- C1 counterexample: the all-`0xFF` input is 384 bytes long, its first
12-bit group has value `4095 ≥ q`, and yet `polyByteDecode` returns a
polynomial rather than an error. -/
theorem polyByteDecode_modulus_counterexample :
    (List.replicate 384 (255 : ℕ)).length = 384 ∧
    (∀ x ∈ List.replicate 384 (255 : ℕ), x < 256) ∧
    q ≤ byteDecodeGroup (List.replicate 384 (255 : ℕ)) 0 &&& 0b111111111111 ∧
    (polyByteDecode (List.replicate 384 (255 : ℕ))).isSome = true :=
  ⟨by decide, by decide, by decide, by decide⟩

theorem byteDecodeGroup_lt {b : List ℕ} (hb : ∀ x ∈ b, x < 256) (p : ℕ) :
    byteDecodeGroup b p < 2 ^ 24 := by
  have hgd : ∀ idx, b.getD idx 0 < 256 := by
    intro idx
    rcases Nat.lt_or_ge idx b.length with h | h
    · rw [List.getD_eq_getElem _ _ h]
      exact hb _ (List.getElem_mem h)
    · rw [List.getD_eq_default _ _ h]
      norm_num
  unfold byteDecodeGroup
  apply Nat.or_lt_two_pow _ _
  · apply Nat.or_lt_two_pow
    · exact lt_of_lt_of_le (hgd _) (by norm_num)
    · rw [Nat.shiftLeft_eq]
      have := hgd (3 * p + 1)
      calc b.getD (3 * p + 1) 0 * 2 ^ 8 < 256 * 2 ^ 8 := by
            exact Nat.mul_lt_mul_of_lt_of_le this (le_refl _) (by norm_num)
      _ ≤ 2 ^ 24 := by norm_num
  · rw [Nat.shiftLeft_eq]
    have := hgd (3 * p + 2)
    calc b.getD (3 * p + 2) 0 * 2 ^ 16 < 256 * 2 ^ 16 := by
          exact Nat.mul_lt_mul_of_lt_of_le this (le_refl _) (by norm_num)
    _ ≤ 2 ^ 24 := by norm_num

theorem polyByteDecode_isSome_iff (b : List ℕ) :
    (polyByteDecode b).isSome ↔ b.length = 384 := by
  unfold polyByteDecode
  split <;> simp_all

theorem polyByteDecode_coeff {b : List ℕ} {f : ℕ → ℕ} (hf : polyByteDecode b = some f)
    (hb : ∀ x ∈ b, x < 256) : ∀ i < 256, f i =
      (if i % 2 = 0 then byteDecodeGroup b (i / 2) % 2 ^ 12
       else byteDecodeGroup b (i / 2) / 2 ^ 12) % q := by
  intro i hi
  have hlen : b.length = 384 := by
    by_contra hc
    unfold polyByteDecode at hf
    rw [if_neg hc] at hf
    exact Option.noConfusion hf
  unfold polyByteDecode at hf
  rw [if_pos hlen] at hf
  have hfe := Option.some.inj hf
  rw [← hfe]
  simp only [if_pos hi]
  have hmask : (0b111111111111 : ℕ) = 2 ^ 12 - 1 := by norm_num
  have hglt := byteDecodeGroup_lt hb (i / 2)
  split
  · rw [hmask, Nat.and_pow_two_sub_one_eq_mod]
    rw [Nat.mod_eq_of_lt (lt_trans (Nat.mod_lt _ (by norm_num)) (by norm_num))]
    exact fieldReduceOnce_eq_mod (lt_of_lt_of_le (Nat.mod_lt _ (by norm_num))
      (by simp only [q]; norm_num))
  · rw [Nat.shiftRight_eq_div_pow]
    have hdiv : byteDecodeGroup b (i / 2) / 2 ^ 12 < 2 ^ 12 :=
      Nat.div_lt_of_lt_mul (by calc byteDecodeGroup b (i / 2) < 2 ^ 24 := hglt
                                _ = 2 ^ 12 * 2 ^ 12 := by norm_num)
    rw [Nat.mod_eq_of_lt (lt_trans hdiv (by norm_num))]
    exact fieldReduceOnce_eq_mod (lt_of_lt_of_le hdiv (by simp only [q]; norm_num))

/-- C1 amended: `polyByteDecode` returns an error exactly when the input is
not 384 bytes long; on every 384-byte input it succeeds, and each 12-bit
group — including groups with value ≥ q — is reduced modulo q (no modulus
check is performed). -/
theorem polyByteDecode_amended :
    (∀ b : List ℕ, (polyByteDecode b).isSome ↔ b.length = 384) ∧
    (∀ b : List ℕ, ∀ f, polyByteDecode b = some f → (∀ x ∈ b, x < 256) →
      ∀ i < 256, f i =
        (if i % 2 = 0 then byteDecodeGroup b (i / 2) % 2 ^ 12
         else byteDecodeGroup b (i / 2) / 2 ^ 12) % q) :=
  ⟨polyByteDecode_isSome_iff, fun _ _ hf hb => polyByteDecode_coeff hf hb⟩

/-!
## NTT layer

`ntt` and `inverseNTT` from mlkem768.go are in-place triple loops over a
256-element array.  Each butterfly touches exactly the two indices `j` and
`j + len`, so the loops are embedded as a left fold of butterfly steps over
the list of loop iterations, each iteration encoded as a triple
`(zeta index k, j, len)`.  `nttStepsGo` / `invNttStepsGo` generate that list
with the same structure as the Go code: the layer lengths `len = 128, 64,
…, 2` (resp. `2, 4, …, 128`), the blocks `start = 0, 2·len, …` (written as
`b = start / (2·len) < 128/len`), the inner loop `j = start, …,
start+len-1` (written `j = 2·len·b + r`, `r < len`), and the twiddle
counter `k` threaded through the blocks starting at 1 and incrementing
(resp. starting at 127 and decrementing).
-/

/-- One Cooley–Tukey butterfly of `ntt`:
`t := fieldMul(zeta, f[j+len]); f[j+len] = fieldSub(f[j], t);
 f[j] = fieldAdd(f[j], t)` for the iteration `s = (k, j, len)`. -/
def nttStep (s : ℕ × ℕ × ℕ) (f : ℕ → ℕ) : ℕ → ℕ :=
  let zeta := zetas.getD s.1 0
  let j := s.2.1
  let len := s.2.2
  let t := fieldMul zeta (f (j + len))
  fun i => if i = j + len then fieldSub (f j) t
    else if i = j then fieldAdd (f j) t
    else f i

/-- One Gentleman–Sande butterfly of `inverseNTT`:
`t := f[j]; f[j] = fieldAdd(t, f[j+len]);
 f[j+len] = fieldMul(zeta, fieldSub(f[j+len], t))`. -/
def invNttStep (s : ℕ × ℕ × ℕ) (f : ℕ → ℕ) : ℕ → ℕ :=
  let zeta := zetas.getD s.1 0
  let j := s.2.1
  let len := s.2.2
  let t := f j
  fun i => if i = j then fieldAdd t (f (j + len))
    else if i = j + len then fieldMul zeta (fieldSub (f (j + len)) t)
    else f i

/-- The iterations of the `ntt` loop nest, in execution order, with the
twiddle counter `k` threaded from 1 upward exactly as in the Go code. -/
def nttStepsGo : List (ℕ × ℕ × ℕ) :=
  ((([128, 64, 32, 16, 8, 4, 2] : List ℕ).foldl (fun acc len =>
    (List.range (128 / len)).foldl (fun acc2 b =>
      (acc2.1 ++ (List.range len).map (fun r => (acc2.2, 2 * len * b + r, len)),
        acc2.2 + 1)) acc) (([] : List (ℕ × ℕ × ℕ)), 1))).1

/-- The iterations of the `inverseNTT` loop nest, with `k` threaded from 127
downward exactly as in the Go code. -/
def invNttStepsGo : List (ℕ × ℕ × ℕ) :=
  ((([2, 4, 8, 16, 32, 64, 128] : List ℕ).foldl (fun acc len =>
    (List.range (128 / len)).foldl (fun acc2 b =>
      (acc2.1 ++ (List.range len).map (fun r => (acc2.2, 2 * len * b + r, len)),
        acc2.2 - 1)) acc) (([] : List (ℕ × ℕ × ℕ)), 127))).1

/-- Go `ntt` from mlkem768.go: the Cooley–Tukey loop nest as a fold of its
butterflies. -/
def ntt (f : ℕ → ℕ) : ℕ → ℕ := nttStepsGo.foldl (fun g s => nttStep s g) f

/-- Go `inverseNTT` from mlkem768.go: the Gentleman–Sande loop nest as a fold
of its butterflies, followed by `f[i] = fieldMul(f[i], 3303)` on all 256
entries. -/
def inverseNTT (f : ℕ → ℕ) : ℕ → ℕ :=
  let g := invNttStepsGo.foldl (fun g s => invNttStep s g) f
  fun i => if i < 256 then fieldMul (g i) 3303 else g i

/-- One layer of forward butterflies: `m = 128/len` blocks, iteration
`t = b·len + r` is the butterfly `(k = m + b, j = 2·len·b + r, len)`. -/
def fwdLayer (m len : ℕ) : List (ℕ × ℕ × ℕ) :=
  (List.range (m * len)).map (fun t =>
    (m + t / len, 2 * len * (t / len) + t % len, len))

/-- One layer of inverse butterflies: the decrementing counter gives block
`b` the zeta index `2·m - 1 - b`. -/
def invLayer (m len : ℕ) : List (ℕ × ℕ × ℕ) :=
  (List.range (m * len)).map (fun t =>
    (2 * m - 1 - t / len, 2 * len * (t / len) + t % len, len))

/-- The `(m = 128/len, len)` pairs of the forward layers in execution
order. -/
def nttLevels : List (ℕ × ℕ) := [(1, 128), (2, 64), (4, 32), (8, 16), (16, 8), (32, 4), (64, 2)]

def nttSteps : List (ℕ × ℕ × ℕ) := nttLevels.flatMap (fun p => fwdLayer p.1 p.2)

def invNttSteps : List (ℕ × ℕ × ℕ) := nttLevels.reverse.flatMap (fun p => invLayer p.1 p.2)

set_option maxRecDepth 100000 in
theorem nttSteps_eq_go : nttSteps = nttStepsGo := by decide

set_option maxRecDepth 100000 in
theorem invNttSteps_eq_go : invNttSteps = invNttStepsGo := by decide

/-- A polynomial state whose 256 entries are reduced field elements. -/
def validPoly (f : ℕ → ℕ) : Prop := ∀ i, i < 256 → f i < q

theorem getD_lt_of_forall {b : List ℕ} {c : ℕ} (hb : ∀ x ∈ b, x < c) (hc : 0 < c)
    (idx : ℕ) : b.getD idx 0 < c := by
  rcases Nat.lt_or_ge idx b.length with h | h
  · rw [List.getD_eq_getElem _ _ h]
    exact hb _ (List.getElem_mem h)
  · rw [List.getD_eq_default _ _ h]
    exact hc

set_option maxRecDepth 10000 in
theorem zetas_getD_lt (k : ℕ) : zetas.getD k 0 < q :=
  getD_lt_of_forall (by decide) (by decide) k

set_option maxRecDepth 10000 in
theorem gammas_getD_lt (k : ℕ) : gammas.getD k 0 < q :=
  getD_lt_of_forall (by decide) (by decide) k

theorem nttStep_valid {s : ℕ × ℕ × ℕ} {f : ℕ → ℕ} (hs : s.2.1 + s.2.2 < 256)
    (hlen : 0 < s.2.2) (hf : validPoly f) : validPoly (nttStep s f) := by
  intro i hi
  simp only [nttStep]
  have hj : s.2.1 < 256 := by omega
  split
  · exact fieldSub_lt (hf _ hj) (fieldMul_lt (zetas_getD_lt _) (hf _ hs))
  split
  · exact fieldAdd_lt (hf _ hj) (fieldMul_lt (zetas_getD_lt _) (hf _ hs))
  · exact hf i hi

theorem invNttStep_valid {s : ℕ × ℕ × ℕ} {f : ℕ → ℕ} (hs : s.2.1 + s.2.2 < 256)
    (hlen : 0 < s.2.2) (hf : validPoly f) : validPoly (invNttStep s f) := by
  intro i hi
  simp only [invNttStep]
  have hj : s.2.1 < 256 := by omega
  split
  · exact fieldAdd_lt (hf _ hj) (hf _ hs)
  split
  · exact fieldMul_lt (zetas_getD_lt _) (fieldSub_lt (hf _ hs) (hf _ hj))
  · exact hf i hi

theorem foldl_valid {step : (ℕ × ℕ × ℕ) → (ℕ → ℕ) → ℕ → ℕ}
    (hstep : ∀ s f, s.2.1 + s.2.2 < 256 → 0 < s.2.2 → validPoly f → validPoly (step s f)) :
    ∀ (l : List (ℕ × ℕ × ℕ)), (∀ s ∈ l, s.2.1 + s.2.2 < 256 ∧ 0 < s.2.2) →
    ∀ f, validPoly f → validPoly (l.foldl (fun g s => step s g) f) := by
  intro l
  induction l with
  | nil => intro _ f hf; exact hf
  | cons s rest ih =>
    intro hl f hf
    rw [List.foldl_cons]
    exact ih (fun a ha => hl a (List.mem_cons_of_mem _ ha)) _
      (hstep s f (hl s (List.mem_cons_self _ _)).1 (hl s (List.mem_cons_self _ _)).2 hf)

set_option maxRecDepth 100000 in
theorem nttStepsGo_bounds : ∀ s ∈ nttStepsGo, s.2.1 + s.2.2 < 256 ∧ 0 < s.2.2 := by
  have h : nttStepsGo.all
      (fun s => decide (s.2.1 + s.2.2 < 256) && decide (0 < s.2.2)) = true := by decide
  rw [List.all_eq_true] at h
  intro s hs
  have := h s hs
  simp only [Bool.and_eq_true, decide_eq_true_eq] at this
  exact this

set_option maxRecDepth 100000 in
theorem invNttStepsGo_bounds : ∀ s ∈ invNttStepsGo, s.2.1 + s.2.2 < 256 ∧ 0 < s.2.2 := by
  have h : invNttStepsGo.all
      (fun s => decide (s.2.1 + s.2.2 < 256) && decide (0 < s.2.2)) = true := by decide
  rw [List.all_eq_true] at h
  intro s hs
  have := h s hs
  simp only [Bool.and_eq_true, decide_eq_true_eq] at this
  exact this

theorem ntt_valid {f : ℕ → ℕ} (hf : validPoly f) : validPoly (ntt f) :=
  foldl_valid (fun _ _ => nttStep_valid) nttStepsGo nttStepsGo_bounds f hf

theorem inverseNTT_valid {f : ℕ → ℕ} (hf : validPoly f) : validPoly (inverseNTT f) := by
  intro i hi
  unfold inverseNTT
  simp only [if_pos hi]
  exact fieldMul_lt
    (foldl_valid (fun _ _ => invNttStep_valid) invNttStepsGo invNttStepsGo_bounds f hf i hi)
    (by simp only [q]; omega)

/-!
### The NTT round trip, over `ZMod 3329`

The butterflies, viewed modulo q, are linear updates over `ZMod 3329`.
`projZ` casts a reduced state to `ZMod 3329`; `nttStepZ` / `invNttStepZ`
mirror the butterflies there.  The forward and inverse loops pair up layer
by layer: on each pair `(j, j+len)` the Gentleman–Sande butterfly undoes
the Cooley–Tukey butterfly up to a factor 2, because the decrementing
twiddle counter pairs `zetas[2m-1-b]` with `zetas[m+b]` and their product
is −1 mod q.  Seven layers give the factor 2⁷ = 128, cancelled by the
final multiplication by 3303 = 128⁻¹ mod q.
-/

def projZ (f : ℕ → ℕ) : ℕ → ZMod 3329 := fun i => (f i : ZMod 3329)

def nttStepZ (s : ℕ × ℕ × ℕ) (g : ℕ → ZMod 3329) : ℕ → ZMod 3329 :=
  fun i => if i = s.2.1 + s.2.2 then g s.2.1 - (zetas.getD s.1 0 : ℕ) * g (s.2.1 + s.2.2)
    else if i = s.2.1 then g s.2.1 + (zetas.getD s.1 0 : ℕ) * g (s.2.1 + s.2.2)
    else g i

def invNttStepZ (s : ℕ × ℕ × ℕ) (g : ℕ → ZMod 3329) : ℕ → ZMod 3329 :=
  fun i => if i = s.2.1 then g s.2.1 + g (s.2.1 + s.2.2)
    else if i = s.2.1 + s.2.2 then (zetas.getD s.1 0 : ℕ) * (g (s.2.1 + s.2.2) - g s.2.1)
    else g i

theorem cast_fieldAdd {a b : ℕ} (ha : a < q) (hb : b < q) :
    ((fieldAdd a b : ℕ) : ZMod 3329) = (a : ZMod 3329) + (b : ZMod 3329) := by
  rw [fieldAdd_eq_mod ha hb, show q = 3329 from rfl, ZMod.natCast_mod, Nat.cast_add]

theorem cast_fieldSub {a b : ℕ} (ha : a < q) (hb : b < q) :
    ((fieldSub a b : ℕ) : ZMod 3329) = (a : ZMod 3329) - (b : ZMod 3329) := by
  rw [fieldSub_eq_mod ha hb, show q = 3329 from rfl, ZMod.natCast_mod,
    Nat.cast_sub (by simp only [q] at hb; omega), Nat.cast_add, ZMod.natCast_self]
  ring

theorem cast_fieldMul {a b : ℕ} (ha : a < q) (hb : b < q) :
    ((fieldMul a b : ℕ) : ZMod 3329) = (a : ZMod 3329) * (b : ZMod 3329) := by
  rw [fieldMul_eq_mod ha hb, show q = 3329 from rfl, ZMod.natCast_mod, Nat.cast_mul]

theorem nttStep_projZ {s : ℕ × ℕ × ℕ} {f : ℕ → ℕ} (hs : s.2.1 + s.2.2 < 256)
    (hlen : 0 < s.2.2) (hf : validPoly f) :
    projZ (nttStep s f) = nttStepZ s (projZ f) := by
  funext i
  have hj : s.2.1 < 256 := by omega
  have hz := zetas_getD_lt s.1
  unfold projZ
  simp only [nttStep, nttStepZ]
  split
  · rw [cast_fieldSub (hf _ hj) (fieldMul_lt hz (hf _ hs)), cast_fieldMul hz (hf _ hs)]
  split
  · rw [cast_fieldAdd (hf _ hj) (fieldMul_lt hz (hf _ hs)), cast_fieldMul hz (hf _ hs)]
  · rfl

theorem invNttStep_projZ {s : ℕ × ℕ × ℕ} {f : ℕ → ℕ} (hs : s.2.1 + s.2.2 < 256)
    (hlen : 0 < s.2.2) (hf : validPoly f) :
    projZ (invNttStep s f) = invNttStepZ s (projZ f) := by
  funext i
  have hj : s.2.1 < 256 := by omega
  have hz := zetas_getD_lt s.1
  unfold projZ
  simp only [invNttStep, invNttStepZ]
  split
  · rw [cast_fieldAdd (hf _ hj) (hf _ hs)]
  split
  · rw [cast_fieldMul hz (fieldSub_lt (hf _ hs) (hf _ hj)),
      cast_fieldSub (hf _ hs) (hf _ hj)]
  · rfl

theorem foldl_projZ {stepN : (ℕ × ℕ × ℕ) → (ℕ → ℕ) → ℕ → ℕ}
    {stepZ : (ℕ × ℕ × ℕ) → (ℕ → ZMod 3329) → ℕ → ZMod 3329}
    (hv : ∀ s f, s.2.1 + s.2.2 < 256 → 0 < s.2.2 → validPoly f → validPoly (stepN s f))
    (hc : ∀ s f, s.2.1 + s.2.2 < 256 → 0 < s.2.2 → validPoly f →
      projZ (stepN s f) = stepZ s (projZ f)) :
    ∀ (l : List (ℕ × ℕ × ℕ)), (∀ s ∈ l, s.2.1 + s.2.2 < 256 ∧ 0 < s.2.2) →
    ∀ f, validPoly f →
      projZ (l.foldl (fun g s => stepN s g) f) = l.foldl (fun g s => stepZ s g) (projZ f) := by
  intro l
  induction l with
  | nil => intro _ f _; rfl
  | cons s rest ih =>
    intro hl f hf
    rw [List.foldl_cons, List.foldl_cons]
    have h1 := hl s (List.mem_cons_self _ _)
    rw [← hc s f h1.1 h1.2 hf]
    exact ih (fun a ha => hl a (List.mem_cons_of_mem _ ha)) _ (hv s f h1.1 h1.2 hf)

/-!
Parallel-application lemmas: a fold of butterflies whose index pairs are
pairwise disjoint acts on each pair independently.
-/

theorem foldl_stepZ_untouched {F : (ℕ × ℕ × ℕ) → (ℕ → ZMod 3329) → ℕ → ZMod 3329}
    (hF1 : ∀ s g i, i ≠ s.2.1 → i ≠ s.2.1 + s.2.2 → F s g i = g i)
    (l : List (ℕ × ℕ × ℕ)) (i : ℕ)
    (hi : ∀ s ∈ l, i ≠ s.2.1 ∧ i ≠ s.2.1 + s.2.2) :
    ∀ g : ℕ → ZMod 3329, l.foldl (fun h s => F s h) g i = g i := by
  induction l with
  | nil => intro g; rfl
  | cons s rest ih =>
    intro g
    rw [List.foldl_cons]
    rw [ih (fun a ha => hi a (List.mem_cons_of_mem _ ha)) (F s g)]
    exact hF1 s g i (hi s (List.mem_cons_self _ _)).1 (hi s (List.mem_cons_self _ _)).2

theorem foldl_stepZ_touched {F : (ℕ × ℕ × ℕ) → (ℕ → ZMod 3329) → ℕ → ZMod 3329}
    (hF1 : ∀ s g i, i ≠ s.2.1 → i ≠ s.2.1 + s.2.2 → F s g i = g i)
    (hF2 : ∀ s (g g' : ℕ → ZMod 3329), g s.2.1 = g' s.2.1 →
      g (s.2.1 + s.2.2) = g' (s.2.1 + s.2.2) →
      F s g s.2.1 = F s g' s.2.1 ∧
      F s g (s.2.1 + s.2.2) = F s g' (s.2.1 + s.2.2)) :
    ∀ (l : List (ℕ × ℕ × ℕ)), l.Nodup →
    (∀ s ∈ l, ∀ s' ∈ l, s ≠ s' →
      s.2.1 ≠ s'.2.1 ∧ s.2.1 ≠ s'.2.1 + s'.2.2 ∧
      s.2.1 + s.2.2 ≠ s'.2.1 ∧ s.2.1 + s.2.2 ≠ s'.2.1 + s'.2.2) →
    ∀ s ∈ l, ∀ g : ℕ → ZMod 3329,
      (l.foldl (fun h s' => F s' h) g) s.2.1 = F s g s.2.1 ∧
      (l.foldl (fun h s' => F s' h) g) (s.2.1 + s.2.2) = F s g (s.2.1 + s.2.2) := by
  intro l
  induction l with
  | nil => intro _ _ s hs; cases hs
  | cons s0 rest ih =>
    intro hnd hdisj s hs g
    have hnd' := List.nodup_cons.mp hnd
    rcases List.mem_cons.mp hs with rfl | hmem
    · -- s is the head; the remaining steps leave its pair untouched
      have hrest : ∀ s' ∈ rest, s.2.1 ≠ s'.2.1 ∧ s.2.1 ≠ s'.2.1 + s'.2.2 ∧
          s.2.1 + s.2.2 ≠ s'.2.1 ∧ s.2.1 + s.2.2 ≠ s'.2.1 + s'.2.2 := by
        intro s' hs'
        exact hdisj s (List.mem_cons_self _ _) s' (List.mem_cons_of_mem _ hs')
          (fun he => hnd'.1 (he ▸ hs'))
      constructor
      · rw [List.foldl_cons]
        exact foldl_stepZ_untouched hF1 rest _
          (fun s' hs' => ⟨(hrest s' hs').1, (hrest s' hs').2.1⟩) (F s g)
      · rw [List.foldl_cons]
        exact foldl_stepZ_untouched hF1 rest _
          (fun s' hs' => ⟨(hrest s' hs').2.2.1, (hrest s' hs').2.2.2⟩) (F s g)
    · -- s is in the tail; the head's update is invisible to its pair
      have hne : s ≠ s0 := fun he => hnd'.1 (he ▸ hmem)
      have hd := hdisj s hs s0 (List.mem_cons_self _ _) hne
      have hagree1 : (F s0 g) s.2.1 = g s.2.1 := hF1 s0 g _ hd.1 hd.2.1
      have hagree2 : (F s0 g) (s.2.1 + s.2.2) = g (s.2.1 + s.2.2) :=
        hF1 s0 g _ hd.2.2.1 hd.2.2.2
      have hih := ih hnd'.2
        (fun a ha a' ha' => hdisj a (List.mem_cons_of_mem _ ha) a'
          (List.mem_cons_of_mem _ ha')) s hmem (F s0 g)
      rw [List.foldl_cons]
      exact ⟨hih.1.trans (hF2 s (F s0 g) g hagree1 hagree2).1,
        hih.2.trans (hF2 s (F s0 g) g hagree1 hagree2).2⟩

theorem nttStepZ_untouched : ∀ (s : ℕ × ℕ × ℕ) (g : ℕ → ZMod 3329) i,
    i ≠ s.2.1 → i ≠ s.2.1 + s.2.2 → nttStepZ s g i = g i := by
  intro s g i h1 h2
  unfold nttStepZ
  rw [if_neg h2, if_neg h1]

theorem nttStepZ_congr : ∀ (s : ℕ × ℕ × ℕ) (g g' : ℕ → ZMod 3329),
    g s.2.1 = g' s.2.1 → g (s.2.1 + s.2.2) = g' (s.2.1 + s.2.2) →
    nttStepZ s g s.2.1 = nttStepZ s g' s.2.1 ∧
    nttStepZ s g (s.2.1 + s.2.2) = nttStepZ s g' (s.2.1 + s.2.2) := by
  intro s g g' e1 e2
  unfold nttStepZ
  rw [e1, e2]
  constructor
  · split
    · rfl
    · rw [if_pos rfl]
  · rw [if_pos rfl]

theorem invNttStepZ_untouched : ∀ (s : ℕ × ℕ × ℕ) (g : ℕ → ZMod 3329) i,
    i ≠ s.2.1 → i ≠ s.2.1 + s.2.2 → invNttStepZ s g i = g i := by
  intro s g i h1 h2
  unfold invNttStepZ
  rw [if_neg h1, if_neg h2]

theorem invNttStepZ_congr : ∀ (s : ℕ × ℕ × ℕ) (g g' : ℕ → ZMod 3329),
    g s.2.1 = g' s.2.1 → g (s.2.1 + s.2.2) = g' (s.2.1 + s.2.2) →
    invNttStepZ s g s.2.1 = invNttStepZ s g' s.2.1 ∧
    invNttStepZ s g (s.2.1 + s.2.2) = invNttStepZ s g' (s.2.1 + s.2.2) := by
  intro s g g' e1 e2
  unfold invNttStepZ
  rw [e1, e2]
  constructor
  · rw [if_pos rfl]
  · split
    · rfl
    · rw [if_pos rfl]

/-!
Index arithmetic of one butterfly layer.  Both layer shapes share the
`(j = 2·len·(t/len) + t%len, len)` structure and differ only in the zeta
index, abstracted as `kf`.
-/

def genLayer (kf : ℕ → ℕ) (m len : ℕ) : List (ℕ × ℕ × ℕ) :=
  (List.range (m * len)).map (fun t => (kf t, 2 * len * (t / len) + t % len, len))

theorem fwdLayer_eq_gen (m len : ℕ) :
    fwdLayer m len = genLayer (fun t => m + t / len) m len := rfl

theorem invLayer_eq_gen (m len : ℕ) :
    invLayer m len = genLayer (fun t => 2 * m - 1 - t / len) m len := rfl

/-- Each index of a butterfly pair determines the iteration `t` it came
from, and whether it is the low (`j`) or high (`j + len`) member. -/
theorem layer_recover {len t x : ℕ} (hlen : 0 < len)
    (hx : x = 2 * len * (t / len) + t % len ∨ x = 2 * len * (t / len) + t % len + len) :
    t = x / (2 * len) * len + x % len ∧
      (x % (2 * len) < len ↔ x = 2 * len * (t / len) + t % len) := by
  set b := t / len with hbdef
  set r := t % len with hrdef
  have hr : r < len := Nat.mod_lt _ hlen
  have ht : len * b + r = t := Nat.div_add_mod t len
  have h2l : 0 < 2 * len := by omega
  rcases hx with hx | hx
  · have hxd : x / (2 * len) = b := by
      rw [hx, Nat.add_comm (2 * len * b) r, Nat.add_mul_div_left _ _ h2l,
        Nat.div_eq_of_lt (show r < 2 * len by omega), Nat.zero_add]
    have hxm : x % len = r := by
      rw [hx, show 2 * len * b + r = r + len * (2 * b) by ring,
        Nat.add_mul_mod_self_left, Nat.mod_eq_of_lt hr]
    have hx2m : x % (2 * len) = r := by
      rw [hx, Nat.add_comm (2 * len * b) r, Nat.add_mul_mod_self_left,
        Nat.mod_eq_of_lt (show r < 2 * len by omega)]
    refine ⟨by rw [hxd, hxm, ← ht]; ring, ⟨fun _ => hx, fun _ => by omega⟩⟩
  · have hxd : x / (2 * len) = b := by
      rw [hx, show 2 * len * b + r + len = (r + len) + 2 * len * b by ring,
        Nat.add_mul_div_left _ _ h2l,
        Nat.div_eq_of_lt (show r + len < 2 * len by omega), Nat.zero_add]
    have hxm : x % len = r := by
      rw [hx, show 2 * len * b + r + len = r + len * (2 * b + 1) by ring,
        Nat.add_mul_mod_self_left, Nat.mod_eq_of_lt hr]
    have hx2m : x % (2 * len) = r + len := by
      rw [hx, show 2 * len * b + r + len = (r + len) + 2 * len * b by ring,
        Nat.add_mul_mod_self_left, Nat.mod_eq_of_lt (show r + len < 2 * len by omega)]
    refine ⟨by rw [hxd, hxm, ← ht]; ring, ⟨fun hlt => by omega, fun heq => by omega⟩⟩

theorem genLayer_mem {kf : ℕ → ℕ} {m len : ℕ} {s : ℕ × ℕ × ℕ}
    (hs : s ∈ genLayer kf m len) :
    ∃ t, t < m * len ∧ s = (kf t, 2 * len * (t / len) + t % len, len) := by
  unfold genLayer at hs
  rw [List.mem_map] at hs
  obtain ⟨t, ht, he⟩ := hs
  exact ⟨t, List.mem_range.mp ht, he.symm⟩

theorem genLayer_nodup (kf : ℕ → ℕ) (m len : ℕ) (hlen : 0 < len) :
    (genLayer kf m len).Nodup := by
  unfold genLayer
  apply List.Nodup.map_on _ (List.nodup_range _)
  intro t _ t' _ he
  have h2 : 2 * len * (t / len) + t % len = 2 * len * (t' / len) + t' % len :=
    congrArg (fun p => p.2.1) he
  have hr1 := (layer_recover (t := t) hlen (Or.inl rfl)).1
  have hr2 := (layer_recover (t := t') hlen (Or.inl rfl)).1
  rw [h2] at hr1
  exact hr1.trans hr2.symm

theorem genLayer_disj (kf : ℕ → ℕ) (m len : ℕ) (hlen : 0 < len) :
    ∀ s ∈ genLayer kf m len, ∀ s' ∈ genLayer kf m len, s ≠ s' →
      s.2.1 ≠ s'.2.1 ∧ s.2.1 ≠ s'.2.1 + s'.2.2 ∧
      s.2.1 + s.2.2 ≠ s'.2.1 ∧ s.2.1 + s.2.2 ≠ s'.2.1 + s'.2.2 := by
  intro s hs s' hs' hne
  obtain ⟨t, ht, rfl⟩ := genLayer_mem hs
  obtain ⟨t', ht', rfl⟩ := genLayer_mem hs'
  have htt : t ≠ t' := fun he => hne (by rw [he])
  have hJ : ∀ x, (x = 2 * len * (t / len) + t % len ∨
        x = 2 * len * (t / len) + t % len + len) →
      (x = 2 * len * (t' / len) + t' % len ∨
        x = 2 * len * (t' / len) + t' % len + len) → False := by
    intro x hx hx'
    have h1 := layer_recover hlen hx
    have h2 := layer_recover (t := t') hlen hx'
    apply htt
    rw [h1.1, h2.1]
  simp only
  refine ⟨?_, ?_, ?_, ?_⟩
  · intro he
    exact hJ _ (Or.inl rfl) (Or.inl he) |>.elim
  · intro he
    exact hJ _ (Or.inl rfl) (Or.inr he) |>.elim
  · intro he
    exact hJ _ (Or.inr rfl) (Or.inl he) |>.elim
  · intro he
    exact hJ _ (Or.inr rfl) (Or.inr he) |>.elim

theorem genLayer_touch_lt (kf : ℕ → ℕ) {m len : ℕ} (hlen : 0 < len)
    (hml : 2 * m * len = 256) :
    ∀ s ∈ genLayer kf m len, s.2.1 + s.2.2 < 256 ∧ 0 < s.2.2 := by
  intro s hs
  obtain ⟨t, ht, rfl⟩ := genLayer_mem hs
  have hb : t / len < m := Nat.div_lt_of_lt_mul (by rw [show len * m = m * len by ring]; exact ht)
  have hr : t % len < len := Nat.mod_lt _ hlen
  refine ⟨?_, hlen⟩
  simp only
  calc 2 * len * (t / len) + t % len + len < 2 * len * (t / len) + 2 * len := by omega
    _ = 2 * len * (t / len + 1) := by ring
    _ ≤ 2 * len * m := Nat.mul_le_mul_left _ hb
    _ = 256 := by rw [← hml]; ring

theorem genLayer_canonical (kf : ℕ → ℕ) {m len i : ℕ} (hlen : 0 < len)
    (hml : 2 * m * len = 256) (hi : i < 256) :
    (kf (i / (2 * len) * len + i % len),
      2 * len * (i / (2 * len)) + i % len, len) ∈ genLayer kf m len ∧
    (i = 2 * len * (i / (2 * len)) + i % len ∨
      i = 2 * len * (i / (2 * len)) + i % len + len) := by
  set b := i / (2 * len) with hbdef
  set r := i % len with hrdef
  have h2l : 0 < 2 * len := by omega
  have hr : r < len := Nat.mod_lt _ hlen
  have hdiv : (b * len + r) / len = b := by
    rw [show b * len + r = r + len * b by ring, Nat.add_mul_div_left _ _ hlen,
      Nat.div_eq_of_lt hr, Nat.zero_add]
  have hmod : (b * len + r) % len = r := by
    rw [show b * len + r = r + len * b by ring, Nat.add_mul_mod_self_left,
      Nat.mod_eq_of_lt hr]
  constructor
  · unfold genLayer
    rw [List.mem_map]
    refine ⟨b * len + r, List.mem_range.mpr ?_, ?_⟩
    · have hbm : b < m := by
        apply Nat.div_lt_of_lt_mul
        rw [show 2 * len * m = 2 * m * len by ring, hml]
        exact hi
      calc b * len + r < (b + 1) * len := by
            have : b * len + r < b * len + len := by omega
            calc b * len + r < b * len + len := this
              _ = (b + 1) * len := by ring
        _ ≤ m * len := Nat.mul_le_mul_right _ hbm
    · rw [hdiv, hmod]
  · have hc := Nat.div_add_mod i (2 * len)
    rw [← hbdef] at hc
    have hcr : i % (2 * len) % len = i % len := Nat.mod_mod_of_dvd _ ⟨2, by ring⟩
    rw [← hrdef] at hcr
    have hclt : i % (2 * len) < 2 * len := Nat.mod_lt _ h2l
    rcases Nat.lt_or_ge (i % (2 * len)) len with h | h
    · left
      have he : r = i % (2 * len) := by rw [← hcr, Nat.mod_eq_of_lt h]
      omega
    · right
      have he : r = i % (2 * len) - len := by
        rw [← hcr, Nat.mod_eq_sub_mod h, Nat.mod_eq_of_lt (by omega)]
      omega

/-- Pointwise scaling of the first 256 entries. -/
def dmap (c : ZMod 3329) (g : ℕ → ZMod 3329) : ℕ → ZMod 3329 :=
  fun i => if i < 256 then c * g i else g i

theorem dmap_lt {i : ℕ} (hi : i < 256) (c : ZMod 3329) (g : ℕ → ZMod 3329) :
    dmap c g i = c * g i := if_pos hi

theorem nttStepZ_at_low (s : ℕ × ℕ × ℕ) (hlen : 0 < s.2.2) (g : ℕ → ZMod 3329) :
    nttStepZ s g s.2.1 = g s.2.1 + (zetas.getD s.1 0 : ℕ) * g (s.2.1 + s.2.2) := by
  unfold nttStepZ
  rw [if_neg (by omega), if_pos rfl]

theorem nttStepZ_at_high (s : ℕ × ℕ × ℕ) (g : ℕ → ZMod 3329) :
    nttStepZ s g (s.2.1 + s.2.2)
      = g s.2.1 - (zetas.getD s.1 0 : ℕ) * g (s.2.1 + s.2.2) := by
  unfold nttStepZ
  rw [if_pos rfl]

theorem invNttStepZ_at_low (s : ℕ × ℕ × ℕ) (g : ℕ → ZMod 3329) :
    invNttStepZ s g s.2.1 = g s.2.1 + g (s.2.1 + s.2.2) := by
  unfold invNttStepZ
  rw [if_pos rfl]

theorem invNttStepZ_at_high (s : ℕ × ℕ × ℕ) (hlen : 0 < s.2.2) (g : ℕ → ZMod 3329) :
    invNttStepZ s g (s.2.1 + s.2.2)
      = (zetas.getD s.1 0 : ℕ) * (g (s.2.1 + s.2.2) - g s.2.1) := by
  unfold invNttStepZ
  rw [if_neg (by omega), if_pos rfl]

theorem invNttStepZ_dmap {s : ℕ × ℕ × ℕ} (hs : s.2.1 + s.2.2 < 256) (hlen : 0 < s.2.2)
    (c : ZMod 3329) (g : ℕ → ZMod 3329) :
    invNttStepZ s (dmap c g) = dmap c (invNttStepZ s g) := by
  funext i
  have hj : s.2.1 < 256 := by omega
  by_cases h1 : i = s.2.1
  · subst h1
    rw [invNttStepZ_at_low s (dmap c g), dmap_lt hj c (invNttStepZ s g),
      invNttStepZ_at_low s g, dmap_lt hj c g, dmap_lt hs c g]
    ring
  by_cases h2 : i = s.2.1 + s.2.2
  · subst h2
    rw [invNttStepZ_at_high s hlen (dmap c g), dmap_lt hs c (invNttStepZ s g),
      invNttStepZ_at_high s hlen g, dmap_lt hj c g, dmap_lt hs c g]
    ring
  · rw [invNttStepZ_untouched s (dmap c g) i h1 h2]
    unfold dmap
    rw [invNttStepZ_untouched s g i h1 h2]

theorem foldl_invZ_dmap (c : ZMod 3329) :
    ∀ (l : List (ℕ × ℕ × ℕ)), (∀ s ∈ l, s.2.1 + s.2.2 < 256 ∧ 0 < s.2.2) →
    ∀ g, l.foldl (fun h s => invNttStepZ s h) (dmap c g)
      = dmap c (l.foldl (fun h s => invNttStepZ s h) g) := by
  intro l
  induction l with
  | nil => intro _ g; rfl
  | cons s rest ih =>
    intro hl g
    rw [List.foldl_cons, List.foldl_cons,
      invNttStepZ_dmap (hl s (List.mem_cons_self _ _)).1 (hl s (List.mem_cons_self _ _)).2 c g]
    exact ih (fun a ha => hl a (List.mem_cons_of_mem _ ha)) _

theorem block_div {len b r : ℕ} (hlen : 0 < len) (hr : r < len) :
    (b * len + r) / len = b := by
  rw [show b * len + r = r + len * b by ring, Nat.add_mul_div_left _ _ hlen,
    Nat.div_eq_of_lt hr, Nat.zero_add]

/-- One inverse layer undoes the matching forward layer up to a factor 2:
on each pair the butterflies compose to doubling because
`zetas[2m-1-b] · zetas[m+b] = −1`. -/
theorem layer_cancel {m len : ℕ} (hml : 2 * m * len = 256) (hlen : 0 < len)
    (hz : ∀ b < m, (zetas.getD (2 * m - 1 - b) 0 : ZMod 3329) *
      (zetas.getD (m + b) 0 : ZMod 3329) = -1) (g : ℕ → ZMod 3329) :
    (invLayer m len).foldl (fun h s => invNttStepZ s h)
      ((fwdLayer m len).foldl (fun h s => nttStepZ s h) g) = dmap 2 g := by
  funext i
  rw [fwdLayer_eq_gen, invLayer_eq_gen]
  by_cases hi : i < 256
  case neg =>
    have hunf : ∀ s ∈ genLayer (fun t => m + t / len) m len,
        i ≠ s.2.1 ∧ i ≠ s.2.1 + s.2.2 := by
      intro s hs
      have := genLayer_touch_lt _ hlen hml s hs
      omega
    have huni : ∀ s ∈ genLayer (fun t => 2 * m - 1 - t / len) m len,
        i ≠ s.2.1 ∧ i ≠ s.2.1 + s.2.2 := by
      intro s hs
      have := genLayer_touch_lt _ hlen hml s hs
      omega
    rw [foldl_stepZ_untouched invNttStepZ_untouched _ i huni,
      foldl_stepZ_untouched nttStepZ_untouched _ i hunf]
    unfold dmap
    rw [if_neg hi]
  case pos =>
    have h2l : 0 < 2 * len := by omega
    have hrlen : i % len < len := Nat.mod_lt _ hlen
    have hb : i / (2 * len) < m := by
      apply Nat.div_lt_of_lt_mul
      rw [show 2 * len * m = 2 * m * len by ring, hml]
      exact hi
    obtain ⟨hmemF, htouch⟩ := genLayer_canonical (fun t => m + t / len) hlen hml hi
    obtain ⟨hmemI, _⟩ := genLayer_canonical (fun t => 2 * m - 1 - t / len) hlen hml hi
    have hds : (i / (2 * len) * len + i % len) / len = i / (2 * len) :=
      block_div hlen hrlen
    have hjlen : 2 * len * (i / (2 * len)) + i % len + len < 256 :=
      ((genLayer_touch_lt (fun t => m + t / len) hlen hml) _ hmemF).1
    have hF := foldl_stepZ_touched nttStepZ_untouched nttStepZ_congr _
      (genLayer_nodup (fun t => m + t / len) m len hlen)
      (genLayer_disj (fun t => m + t / len) m len hlen) _ hmemF g
    have hI := foldl_stepZ_touched invNttStepZ_untouched invNttStepZ_congr _
      (genLayer_nodup (fun t => 2 * m - 1 - t / len) m len hlen)
      (genLayer_disj (fun t => 2 * m - 1 - t / len) m len hlen) _ hmemI
      ((genLayer (fun t => m + t / len) m len).foldl (fun h s => nttStepZ s h) g)
    set jl := 2 * len * (i / (2 * len)) + i % len with hjldef
    set A := (genLayer (fun t => m + t / len) m len).foldl (fun h s => nttStepZ s h) g
      with hAdef
    set zf := (zetas.getD (m + (i / (2 * len) * len + i % len) / len) 0 : ZMod 3329)
      with hzf
    set zi := (zetas.getD (2 * m - 1 - (i / (2 * len) * len + i % len) / len) 0 : ZMod 3329)
      with hzi
    have hAj : A jl = g jl + zf * g (jl + len) := by
      rw [hF.1, nttStepZ_at_low _ hlen g]
    have hAjl : A (jl + len) = g jl - zf * g (jl + len) := by
      rw [hF.2, nttStepZ_at_high _ g]
    have hzprod : zi * zf = -1 := by
      rw [hzi, hzf, hds]
      exact hz _ hb
    rcases htouch with hlow | hhigh
    · rw [hlow, hI.1, invNttStepZ_at_low _ A, hAj, hAjl,
        dmap_lt (by omega : jl < 256) 2 g]
      ring
    · rw [hhigh, hI.2, invNttStepZ_at_high _ hlen A, hAj, hAjl,
        dmap_lt (by omega : jl + len < 256) 2 g]
      linear_combination (-2 * g (jl + len)) * hzprod

/-- The conditions on one `(m, len)` level: sizes multiply to 256 and the
inverse-layer zetas are the negated inverses of the forward-layer zetas. -/
def levelOK (p : ℕ × ℕ) : Prop :=
  2 * p.1 * p.2 = 256 ∧ 0 < p.2 ∧
    ∀ b < p.1, (zetas.getD (2 * p.1 - 1 - b) 0 : ZMod 3329) *
      (zetas.getD (p.1 + b) 0 : ZMod 3329) = -1

theorem cancel_chain : ∀ (ls : List (ℕ × ℕ)), (∀ p ∈ ls, levelOK p) →
    ∀ g : ℕ → ZMod 3329,
    (ls.reverse.flatMap (fun p => invLayer p.1 p.2)).foldl (fun h s => invNttStepZ s h)
      ((ls.flatMap (fun p => fwdLayer p.1 p.2)).foldl (fun h s => nttStepZ s h) g)
    = dmap (2 ^ ls.length) g := by
  intro ls
  induction ls with
  | nil =>
    intro _ g
    funext i
    simp [dmap]
  | cons p rest ih =>
    intro hOK g
    have hp := hOK p (List.mem_cons_self _ _)
    rw [List.flatMap_cons, List.reverse_cons, List.flatMap_append, List.foldl_append,
      List.foldl_append]
    simp only [List.flatMap_cons, List.flatMap_nil, List.append_nil]
    rw [ih (fun a ha => hOK a (List.mem_cons_of_mem _ ha)) _]
    have hbounds : ∀ s ∈ invLayer p.1 p.2, s.2.1 + s.2.2 < 256 ∧ 0 < s.2.2 := by
      intro s hs
      rw [invLayer_eq_gen] at hs
      exact genLayer_touch_lt _ hp.2.1 hp.1 s hs
    rw [foldl_invZ_dmap (2 ^ rest.length) _ hbounds]
    rw [layer_cancel hp.1 hp.2.1 hp.2.2 g]
    funext i
    unfold dmap
    split_ifs
    · rw [List.length_cons, pow_succ]
      ring
    · rfl

set_option maxRecDepth 10000 in
theorem nttLevels_OK : ∀ p ∈ nttLevels, levelOK p := by
  intro p hp
  fin_cases hp <;> exact ⟨by norm_num, by norm_num, by decide⟩

/-- C4: `inverseNTT ∘ ntt` is the identity on ring elements whose 256
coefficients are reduced mod q. -/
theorem ntt_roundtrip (f : ℕ → ℕ) (hf : ∀ i, i < 256 → f i < q) :
    ∀ i, i < 256 → inverseNTT (ntt f) i = f i := by
  have hvf : validPoly f := hf
  have hvntt : validPoly (ntt f) := ntt_valid hvf
  have hvfold : validPoly (invNttStepsGo.foldl (fun g s => invNttStep s g) (ntt f)) :=
    foldl_valid (fun _ _ => invNttStep_valid) invNttStepsGo invNttStepsGo_bounds _ hvntt
  intro i hi
  have hfwd : projZ (ntt f) = nttSteps.foldl (fun g s => nttStepZ s g) (projZ f) := by
    unfold ntt
    rw [← nttSteps_eq_go]
    exact foldl_projZ (fun _ _ => nttStep_valid) (fun _ _ => nttStep_projZ) nttSteps
      (nttSteps_eq_go ▸ nttStepsGo_bounds) f hvf
  have hinv : projZ (invNttStepsGo.foldl (fun g s => invNttStep s g) (ntt f))
      = invNttSteps.foldl (fun g s => invNttStepZ s g) (projZ (ntt f)) := by
    rw [← invNttSteps_eq_go]
    exact foldl_projZ (fun _ _ => invNttStep_valid) (fun _ _ => invNttStep_projZ) invNttSteps
      (invNttSteps_eq_go ▸ invNttStepsGo_bounds) _ hvntt
  have hchain : invNttSteps.foldl (fun g s => invNttStepZ s g)
      (nttSteps.foldl (fun g s => nttStepZ s g) (projZ f)) = dmap 128 (projZ f) := by
    have h := cancel_chain nttLevels nttLevels_OK (projZ f)
    have h7 : (2 : ZMod 3329) ^ nttLevels.length = 128 := by
      norm_num [nttLevels]
    rw [h7] at h
    exact h
  have hcast : ((inverseNTT (ntt f) i : ℕ) : ZMod 3329) = ((f i : ℕ) : ZMod 3329) := by
    unfold inverseNTT
    simp only [if_pos hi]
    rw [cast_fieldMul (hvfold i hi) (by simp only [q]; omega)]
    have hGi : ((invNttStepsGo.foldl (fun g s => invNttStep s g) (ntt f) i : ℕ) : ZMod 3329)
        = dmap 128 (projZ f) i := by
      have e1 : ((invNttStepsGo.foldl (fun g s => invNttStep s g) (ntt f) i : ℕ) : ZMod 3329)
          = projZ (invNttStepsGo.foldl (fun g s => invNttStep s g) (ntt f)) i := rfl
      rw [e1, hinv, hfwd, hchain]
    rw [hGi]
    unfold dmap
    rw [if_pos hi]
    have h1 : (128 : ZMod 3329) * 3303 = 1 := by decide
    have e2 : projZ f i = ((f i : ℕ) : ZMod 3329) := rfl
    rw [← e2]
    linear_combination (projZ f i) * h1
  have hlt1 : inverseNTT (ntt f) i < 3329 := inverseNTT_valid hvntt i hi
  have hlt2 : f i < 3329 := hf i hi
  have hval := congrArg ZMod.val hcast
  rw [ZMod.val_cast_of_lt hlt1, ZMod.val_cast_of_lt hlt2] at hval
  exact hval

/-- Witness for `ntt_roundtrip` at `f = fun j => j % 3329`, `i = 77`. -/
theorem ntt_roundtrip_witness :
    inverseNTT (ntt (fun j => j % 3329)) 77 = (fun j => j % 3329) 77 :=
  ntt_roundtrip (fun j => j % 3329) (fun i _ => Nat.mod_lt i (by decide)) 77 (by decide)

/-!
## Polynomial arithmetic, sampling and the compression codecs
-/

/-- Go `polyAdd` from mlkem768.go: coefficient-wise `fieldAdd` into a fresh
zero-initialised 256-element array. -/
def polyAdd (a b : ℕ → ℕ) : ℕ → ℕ :=
  fun i => if i < 256 then fieldAdd (a i) (b i) else 0

/-- Go `polySub` from mlkem768.go: coefficient-wise `fieldSub`. -/
def polySub (a b : ℕ → ℕ) : ℕ → ℕ :=
  fun i => if i < 256 then fieldSub (a i) (b i) else 0

/-- Go `samplePolyCBD` from mlkem768.go, factored over the 128 bytes `B`
squeezed from `SHAKE256(s ‖ b)` (the PRF is the external sha3 library):
byte `B[i/2]` yields bits `b_0 … b_7`;
`f[i] = fieldSub(b_0+b_1, b_2+b_3); f[i+1] = fieldSub(b_4+b_5, b_6+b_7)`. -/
def samplePolyCBD (B : List ℕ) : ℕ → ℕ := fun i =>
  if i < 256 then
    let byt := B.getD (i / 2) 0
    if i % 2 = 0 then
      fieldSub ((byt &&& 1) + (byt >>> 1 &&& 1)) ((byt >>> 2 &&& 1) + (byt >>> 3 &&& 1))
    else
      fieldSub ((byt >>> 4 &&& 1) + (byt >>> 5 &&& 1)) ((byt >>> 6 &&& 1) + (byt >>> 7))
  else 0

/-- Go `nttMul` from mlkem768.go (MultiplyNTTs): for each `i < 128`,
`h[2i] = a0·b0 + a1·b1·gammas[i]`, `h[2i+1] = a0·b1 + a1·b0`, into a fresh
zero-initialised array. -/
def nttMul (f g : ℕ → ℕ) : ℕ → ℕ := fun x =>
  if x < 256 then
    let i := x / 2
    if x % 2 = 0 then
      fieldAdd (fieldMul (f (2 * i)) (g (2 * i)))
        (fieldMul (fieldMul (f (2 * i + 1)) (g (2 * i + 1))) (gammas.getD i 0))
    else
      fieldAdd (fieldMul (f (2 * i)) (g (2 * i + 1))) (fieldMul (f (2 * i + 1)) (g (2 * i)))
  else 0

/-- Go `ringCompressAndEncode1` from mlkem768.go: one bit per coefficient,
bit `i % 8` of byte `i / 8` (the Go function appends to its first
argument; the model returns the 32 appended bytes). -/
def ringCompressAndEncode1 (f : ℕ → ℕ) : List ℕ :=
  (List.range 32).map (fun k =>
    (List.range 8).foldl (fun acc r => acc ||| compress (f (8 * k + r)) 1 <<< r) 0)

/-- Go `ringCompressAndEncode4` from mlkem768.go: two coefficients per byte,
`b[i/2] = compress(f[i], 4) | compress(f[i+1], 4) << 4`. -/
def ringCompressAndEncode4 (f : ℕ → ℕ) : List ℕ :=
  (List.range 128).map (fun i =>
    (compress (f (2 * i)) 4 ||| compress (f (2 * i + 1)) 4 <<< 4) % 2 ^ 8)

/-- Go `ringCompressAndEncode10` from mlkem768.go: four coefficients packed
little-endian into five bytes through a uint64. -/
def ringCompressAndEncode10 (f : ℕ → ℕ) : List ℕ :=
  (List.range 64).flatMap (fun g =>
    let x := compress (f (4 * g)) 10 ||| compress (f (4 * g + 1)) 10 <<< 10 |||
      compress (f (4 * g + 2)) 10 <<< 20 ||| compress (f (4 * g + 3)) 10 <<< 30
    [x % 2 ^ 8, x >>> 8 % 2 ^ 8, x >>> 16 % 2 ^ 8, x >>> 24 % 2 ^ 8, x >>> 32 % 2 ^ 8])

/-- Go `ringDecodeAndDecompress1` from mlkem768.go: 32 bytes, each bit mapped
to 0 or 1665. -/
def ringDecodeAndDecompress1 (b : List ℕ) : Option (ℕ → ℕ) :=
  if b.length = 32 then
    some (fun i => if i < 256 then (b.getD (i / 8) 0 >>> (i % 8) &&& 1) * 1665 else 0)
  else none

/-- Go `ringDecodeAndDecompress4` from mlkem768.go: 128 bytes, each nibble
decompressed at d = 4. -/
def ringDecodeAndDecompress4 (b : List ℕ) : Option (ℕ → ℕ) :=
  if b.length = 128 then
    some (fun i => if i < 256 then
      (if i % 2 = 0 then decompress (b.getD (i / 2) 0 &&& 0b1111) 4
        else decompress (b.getD (i / 2) 0 >>> 4) 4)
      else 0)
  else none

/-- Go `ringDecodeAndDecompress10` from mlkem768.go: 320 bytes, five bytes
assembled little-endian into a uint64, four 10-bit fields decompressed. -/
def ringDecodeAndDecompress10 (b : List ℕ) : Option (ℕ → ℕ) :=
  if b.length = 320 then
    some (fun i => if i < 256 then
      (let g := i / 4
       let x := b.getD (5 * g) 0 ||| b.getD (5 * g + 1) 0 <<< 8 |||
         b.getD (5 * g + 2) 0 <<< 16 ||| b.getD (5 * g + 3) 0 <<< 24 |||
         b.getD (5 * g + 4) 0 <<< 32
       decompress ((x >>> (10 * (i % 4)) &&& 0b1111111111) % 2 ^ 16) 10)
      else 0)
  else none

set_option maxRecDepth 10000 in
/-- Witness for `polyByteDecode_amended` at the all-`0xFF` input, `i = 0`. -/
theorem polyByteDecode_amended_witness :
    ((polyByteDecode (List.replicate 384 (255 : ℕ))).isSome ↔
      (List.replicate 384 (255 : ℕ)).length = 384) ∧
    ((polyByteDecode (List.replicate 384 (255 : ℕ))).getD (fun _ => 0)) 0 =
      (if (0 : ℕ) % 2 = 0
        then byteDecodeGroup (List.replicate 384 (255 : ℕ)) (0 / 2) % 2 ^ 12
        else byteDecodeGroup (List.replicate 384 (255 : ℕ)) (0 / 2) / 2 ^ 12) % q :=
  ⟨polyByteDecode_amended.1 _,
   polyByteDecode_amended.2 (List.replicate 384 (255 : ℕ))
     ((polyByteDecode (List.replicate 384 (255 : ℕ))).getD (fun _ => 0))
     (by rfl) (by decide) 0 (by decide)⟩


/-!
## Range invariants (C7) and the matrix sampling conventions (C5)
-/

theorem samplePolyCBD_lt {B : List ℕ} (hB : ∀ x ∈ B, x < 256) :
    ∀ i, i < 256 → samplePolyCBD B i < q := by
  intro i hi
  unfold samplePolyCBD
  rw [if_pos hi]
  have hbyt : B.getD (i / 2) 0 < 256 := getD_lt_of_forall hB (by norm_num) _
  have h1 : ∀ n : ℕ, n &&& 1 ≤ 1 := fun n => Nat.and_le_right
  have h7 : B.getD (i / 2) 0 >>> 7 < 2 := by
    rw [Nat.shiftRight_eq_div_pow]
    omega
  split
  · refine fieldSub_lt ?_ ?_
    · have := h1 (B.getD (i / 2) 0)
      have := h1 (B.getD (i / 2) 0 >>> 1)
      simp only [q]
      omega
    · have := h1 (B.getD (i / 2) 0 >>> 2)
      have := h1 (B.getD (i / 2) 0 >>> 3)
      simp only [q]
      omega
  · refine fieldSub_lt ?_ ?_
    · have := h1 (B.getD (i / 2) 0 >>> 4)
      have := h1 (B.getD (i / 2) 0 >>> 5)
      simp only [q]
      omega
    · have := h1 (B.getD (i / 2) 0 >>> 6)
      simp only [q]
      omega

theorem nttMul_valid {f g : ℕ → ℕ} (hf : validPoly f) (hg : validPoly g) :
    validPoly (nttMul f g) := by
  intro x hx
  unfold nttMul
  rw [if_pos hx]
  have h2i : 2 * (x / 2) < 256 := by omega
  have h2i1 : 2 * (x / 2) + 1 < 256 := by omega
  split
  · exact fieldAdd_lt (fieldMul_lt (hf _ h2i) (hg _ h2i))
      (fieldMul_lt (fieldMul_lt (hf _ h2i1) (hg _ h2i1)) (gammas_getD_lt _))
  · exact fieldAdd_lt (fieldMul_lt (hf _ h2i) (hg _ h2i1))
      (fieldMul_lt (hf _ h2i1) (hg _ h2i))

set_option maxRecDepth 40000 in
theorem decompress_lt {y : ℕ} :
    (y < 2 ^ 1 → decompress y 1 < q) ∧ (y < 2 ^ 4 → decompress y 4 < q) ∧
    (y < 2 ^ 10 → decompress y 10 < q) := by
  refine ⟨fun hy => ?_, fun hy => ?_, fun hy => ?_⟩
  · simpa using checkBall_sound (fun z => decide (decompress z 1 < q)) (2 ^ 1)
      (by decide) y hy
  · simpa using checkBall_sound (fun z => decide (decompress z 4 < q)) (2 ^ 4)
      (by decide) y hy
  · simpa using checkBall_sound (fun z => decide (decompress z 10 < q)) (2 ^ 10)
      (by decide) y hy

/-- C7: every operation that produces field elements lands in `[0, q)`:
`fieldAdd`/`fieldSub`/`fieldMul` on reduced inputs, `decompress` on d-bit
inputs for the used widths d ∈ {1, 4, 10}, `polyByteDecode` on accepted
byte inputs, `samplePolyCBD` on every PRF stream, and `ntt`, `inverseNTT`
and `nttMul` on reduced elements. -/
theorem field_range_invariants :
    (∀ a b : ℕ, a < q → b < q →
      fieldAdd a b < q ∧ fieldSub a b < q ∧ fieldMul a b < q) ∧
    (∀ y : ℕ, (y < 2 ^ 1 → decompress y 1 < q) ∧ (y < 2 ^ 4 → decompress y 4 < q) ∧
      (y < 2 ^ 10 → decompress y 10 < q)) ∧
    (∀ (b : List ℕ) (f : ℕ → ℕ), polyByteDecode b = some f → (∀ x ∈ b, x < 256) →
      ∀ i, i < 256 → f i < q) ∧
    (∀ B : List ℕ, (∀ x ∈ B, x < 256) → ∀ i, i < 256 → samplePolyCBD B i < q) ∧
    (∀ f : ℕ → ℕ, validPoly f → validPoly (ntt f)) ∧
    (∀ f : ℕ → ℕ, validPoly f → validPoly (inverseNTT f)) ∧
    (∀ f g : ℕ → ℕ, validPoly f → validPoly g → validPoly (nttMul f g)) := by
  refine ⟨fun a b ha hb => ⟨fieldAdd_lt ha hb, fieldSub_lt ha hb, fieldMul_lt ha hb⟩,
    fun y => decompress_lt,
    fun b f hf hb i hi => ?_,
    fun B hB => samplePolyCBD_lt hB,
    fun f hf => ntt_valid hf,
    fun f hf => inverseNTT_valid hf,
    fun f g hf hg => nttMul_valid hf hg⟩
  rw [polyByteDecode_coeff hf hb i hi]
  exact Nat.mod_lt _ (by simp only [q]; omega)

set_option maxRecDepth 10000 in
/-- Witness for `field_range_invariants` at concrete inputs. -/
theorem field_range_invariants_witness :
    fieldAdd 3328 3328 < q ∧
    decompress 1023 10 < q ∧
    (polyByteDecode (List.replicate 384 255)).getD (fun _ => 0) 7 < q ∧
    samplePolyCBD (List.replicate 128 255) 9 < q ∧
    ntt (fun j => j % 3329) 5 < q ∧
    inverseNTT (fun j => j % 3329) 6 < q ∧
    nttMul (fun j => j % 3329) (fun j => j % 3329) 8 < q :=
  ⟨(field_range_invariants.1 3328 3328 (by decide) (by decide)).1,
   (field_range_invariants.2.1 1023).2.2 (by decide),
   field_range_invariants.2.2.1 (List.replicate 384 255)
     ((polyByteDecode (List.replicate 384 255)).getD (fun _ => 0)) (by rfl)
     (by decide) 7 (by decide),
   field_range_invariants.2.2.2.1 _ (by decide) 9 (by decide),
   field_range_invariants.2.2.2.2.1 _ (fun i _ => Nat.mod_lt i (by decide)) 5 (by decide),
   field_range_invariants.2.2.2.2.2.1 _ (fun i _ => Nat.mod_lt i (by decide)) 6 (by decide),
   field_range_invariants.2.2.2.2.2.2 _ _ (fun i _ => Nat.mod_lt i (by decide))
     (fun i _ => Nat.mod_lt i (by decide)) 8 (by decide)⟩

/-- The matrix `A` built by `pkeKeyGen` (mlkem768.go lines 41-49): row-major
`A[i*k+j] = sampleNTT(ρ, j, i)`, abstracting the XOF-backed `sampleNTT` as
the function argument. -/
def pkeKeyGenA (sample : ℕ → ℕ → ℕ → ℕ) : List (ℕ → ℕ) :=
  (List.range 3).flatMap (fun i => (List.range 3).map (fun j => sample j i))

/-- The matrix `AT` built by `pkeEncrypt` (mlkem768.go lines 107-113):
row-major `AT[i*k+j] = sampleNTT(ρ, i, j)` (indices swapped relative to
`pkeKeyGen`, as the code needs the transpose of A). -/
def pkeEncryptAT (sample : ℕ → ℕ → ℕ → ℕ) : List (ℕ → ℕ) :=
  (List.range 3).flatMap (fun i => (List.range 3).map (fun j => sample i j))

/-- C5: `pkeKeyGen` places `sampleNTT(ρ, j, i)` at row-major position
`i·k + j`, while `pkeEncrypt` places `sampleNTT(ρ, i, j)` there, for every
`i, j < 3`. -/
theorem matrix_index_convention (sample : ℕ → ℕ → ℕ → ℕ) (dflt : ℕ → ℕ)
    (i j : ℕ) (hi : i < 3) (hj : j < 3) :
    (pkeKeyGenA sample).getD (i * 3 + j) dflt = sample j i ∧
    (pkeEncryptAT sample).getD (i * 3 + j) dflt = sample i j := by
  interval_cases i <;> interval_cases j <;> exact ⟨rfl, rfl⟩

/-- Witness for `matrix_index_convention` at `i = 1`, `j = 2`. -/
theorem matrix_index_convention_witness :
    (pkeKeyGenA (fun a b _ => 10 * a + b)).getD (1 * 3 + 2) (fun _ => 0)
        = (fun a b _ => 10 * a + b) 2 1 ∧
    (pkeEncryptAT (fun a b _ => 10 * a + b)).getD (1 * 3 + 2) (fun _ => 0)
        = (fun a b _ => 10 * a + b) 1 2 :=
  matrix_index_convention (fun a b _ => 10 * a + b) (fun _ => 0) 1 2
    (by decide) (by decide)


/-!
## K-PKE encryption (C6)
-/

theorem opt_eq_some_getD {α : Type} (o : Option α) (d : α) (h : o.isSome = true) :
    o = some (o.getD d) := by
  cases o
  · simp at h
  · rfl

theorem length_flatMap_const {α : Type} (f : ℕ → List α) (c : ℕ)
    (h : ∀ i, (f i).length = c) : ∀ n, ((List.range n).flatMap f).length = n * c := by
  intro n
  induction n with
  | zero => simp
  | succ k ih =>
    rw [List.range_succ, List.flatMap_append, List.length_append, ih]
    simp only [List.flatMap_cons, List.flatMap_nil, List.append_nil, h k, Nat.succ_mul]

theorem ringCompressAndEncode10_length (f : ℕ → ℕ) :
    (ringCompressAndEncode10 f).length = 320 := by
  unfold ringCompressAndEncode10
  rw [show (320 : ℕ) = 64 * 5 from rfl]
  apply length_flatMap_const
  intro i
  rfl

theorem ringCompressAndEncode4_length (f : ℕ → ℕ) :
    (ringCompressAndEncode4 f).length = 128 := by
  unfold ringCompressAndEncode4
  simp

theorem ringCompressAndEncode1_length (f : ℕ → ℕ) :
    (ringCompressAndEncode1 f).length = 32 := by
  unfold ringCompressAndEncode1
  simp

theorem ringDecodeAndDecompress1_isSome {b : List ℕ} (h : b.length = 32) :
    (ringDecodeAndDecompress1 b).isSome = true := by
  unfold ringDecodeAndDecompress1
  rw [if_pos h]
  rfl

theorem ringDecodeAndDecompress4_isSome {b : List ℕ} (h : b.length = 128) :
    (ringDecodeAndDecompress4 b).isSome = true := by
  unfold ringDecodeAndDecompress4
  rw [if_pos h]
  rfl

theorem ringDecodeAndDecompress10_isSome {b : List ℕ} (h : b.length = 320) :
    (ringDecodeAndDecompress10 b).isSome = true := by
  unfold ringDecodeAndDecompress10
  rw [if_pos h]
  rfl

/-- The vector `u = NTT⁻¹(AT ◦ r) + e1` computed by `pkeEncrypt`, row `i`. -/
def pkeEncryptU (sampleNTT : List ℕ → ℕ → ℕ → ℕ → ℕ) (prf : List ℕ → ℕ → List ℕ)
    (ek rnd : List ℕ) (i : ℕ) : ℕ → ℕ :=
  (List.range 3).foldl
    (fun acc j => polyAdd acc (inverseNTT (nttMul
      ((pkeEncryptAT (sampleNTT (ek.drop 1152))).getD (i * 3 + j) (fun _ => 0))
      (ntt (samplePolyCBD (prf rnd j))))))
    (samplePolyCBD (prf rnd (3 + i)))

/-- The value `v = NTT⁻¹(t⊺ ◦ r) + e2 + μ` computed by `pkeEncrypt`. -/
def pkeEncryptV (prf : List ℕ → ℕ → List ℕ) (ek m rnd : List ℕ) : ℕ → ℕ :=
  polyAdd (polyAdd (inverseNTT
      ((List.range 3).foldl (fun acc i => polyAdd acc (nttMul
        ((polyByteDecode ((ek.drop (384 * i)).take 384)).getD (fun _ => 0))
        (ntt (samplePolyCBD (prf rnd i))))) (fun _ => 0)))
    (samplePolyCBD (prf rnd 6)))
    ((ringDecodeAndDecompress1 m).getD (fun _ => 0))

/-- Go `pkeEncrypt` from mlkem768.go (K-PKE.Encrypt, FIPS 203 (DRAFT)
Algorithm 13).  `sampleNTT` abstracts the SHAKE-128-backed rejection
sampler; `prf` abstracts the SHAKE-256 PRF feeding `samplePolyCBD`.  The
binds reproduce the error flow of the Go function (each `polyByteDecode`
of an `ek` slice, and the decode of `m`); on the success path the bound
decode results are exactly the `.getD` values that `pkeEncryptU` /
`pkeEncryptV` read, so `u` and `v` are shared with those definitions. -/
def pkeEncrypt (sampleNTT : List ℕ → ℕ → ℕ → ℕ → ℕ) (prf : List ℕ → ℕ → List ℕ)
    (ek m rnd : List ℕ) : Option (List ℕ) :=
  if ek.length ≠ 1184 then none
  else if m.length ≠ 32 then none
  else
    (polyByteDecode ((ek.drop 0).take 384)).bind fun _ =>
    (polyByteDecode ((ek.drop 384).take 384)).bind fun _ =>
    (polyByteDecode ((ek.drop 768).take 384)).bind fun _ =>
    (ringDecodeAndDecompress1 m).bind fun _ =>
    some (ringCompressAndEncode10 (pkeEncryptU sampleNTT prf ek rnd 0) ++
      ringCompressAndEncode10 (pkeEncryptU sampleNTT prf ek rnd 1) ++
      ringCompressAndEncode10 (pkeEncryptU sampleNTT prf ek rnd 2) ++
      ringCompressAndEncode4 (pkeEncryptV prf ek m rnd))

theorem pkeEncrypt_eq {sampleNTT : List ℕ → ℕ → ℕ → ℕ → ℕ} {prf : List ℕ → ℕ → List ℕ}
    {ek m rnd : List ℕ} (hek : ek.length = 1184) (hm : m.length = 32) :
    pkeEncrypt sampleNTT prf ek m rnd =
      some (ringCompressAndEncode10 (pkeEncryptU sampleNTT prf ek rnd 0) ++
        ringCompressAndEncode10 (pkeEncryptU sampleNTT prf ek rnd 1) ++
        ringCompressAndEncode10 (pkeEncryptU sampleNTT prf ek rnd 2) ++
        ringCompressAndEncode4 (pkeEncryptV prf ek m rnd)) := by
  unfold pkeEncrypt
  rw [if_neg (by omega), if_neg (by omega)]
  rw [opt_eq_some_getD (polyByteDecode ((ek.drop 0).take 384)) (fun _ => 0)
    ((polyByteDecode_isSome_iff _).mpr (by simp [hek]))]
  rw [opt_eq_some_getD (polyByteDecode ((ek.drop 384).take 384)) (fun _ => 0)
    ((polyByteDecode_isSome_iff _).mpr (by simp [hek]))]
  rw [opt_eq_some_getD (polyByteDecode ((ek.drop 768).take 384)) (fun _ => 0)
    ((polyByteDecode_isSome_iff _).mpr (by simp [hek]))]
  rw [opt_eq_some_getD (ringDecodeAndDecompress1 m) (fun _ => 0)
    (ringDecodeAndDecompress1_isSome hm)]
  rw [Option.some_bind, Option.some_bind, Option.some_bind, Option.some_bind]

theorem pkeEncrypt_isSome_iff (sampleNTT : List ℕ → ℕ → ℕ → ℕ → ℕ)
    (prf : List ℕ → ℕ → List ℕ) (ek m rnd : List ℕ) :
    (pkeEncrypt sampleNTT prf ek m rnd).isSome = true ↔
      (ek.length = 1184 ∧ m.length = 32) := by
  constructor
  · intro h
    by_cases h1 : ek.length = 1184
    · by_cases h2 : m.length = 32
      · exact ⟨h1, h2⟩
      · unfold pkeEncrypt at h
        rw [if_neg (by omega), if_pos (by omega)] at h
        simp at h
    · unfold pkeEncrypt at h
      rw [if_pos (by omega)] at h
      simp at h
  · rintro ⟨h1, h2⟩
    rw [pkeEncrypt_eq h1 h2]
    rfl

set_option maxRecDepth 100000 in
/-- C6: `pkeEncrypt` fails exactly on wrong `ek`/`m` lengths; a successful
ciphertext is the three 320-byte `Compress₁₀∘ByteEncode₁₀` blocks of the
vector `u` followed by the 128-byte `Compress₄∘ByteEncode₄` block of `v`,
1088 bytes in total. -/
theorem pkeEncrypt_layout (sampleNTT : List ℕ → ℕ → ℕ → ℕ → ℕ)
    (prf : List ℕ → ℕ → List ℕ) :
    (∀ ek m rnd : List ℕ, (pkeEncrypt sampleNTT prf ek m rnd).isSome = true ↔
      (ek.length = 1184 ∧ m.length = 32)) ∧
    (∀ ek m rnd c : List ℕ, pkeEncrypt sampleNTT prf ek m rnd = some c →
      c = ringCompressAndEncode10 (pkeEncryptU sampleNTT prf ek rnd 0) ++
        ringCompressAndEncode10 (pkeEncryptU sampleNTT prf ek rnd 1) ++
        ringCompressAndEncode10 (pkeEncryptU sampleNTT prf ek rnd 2) ++
        ringCompressAndEncode4 (pkeEncryptV prf ek m rnd) ∧
      c.length = 1088 ∧
      (∀ i, (ringCompressAndEncode10 (pkeEncryptU sampleNTT prf ek rnd i)).length = 320) ∧
      (ringCompressAndEncode4 (pkeEncryptV prf ek m rnd)).length = 128) := by
  refine ⟨pkeEncrypt_isSome_iff sampleNTT prf, fun ek m rnd c hc => ?_⟩
  have hsome : (pkeEncrypt sampleNTT prf ek m rnd).isSome = true := by
    rw [hc]
    rfl
  obtain ⟨h1, h2⟩ := (pkeEncrypt_isSome_iff sampleNTT prf ek m rnd).mp hsome
  rw [pkeEncrypt_eq h1 h2] at hc
  have hcv := Option.some.inj hc
  refine ⟨hcv.symm, ?_, fun i => ringCompressAndEncode10_length _,
    ringCompressAndEncode4_length _⟩
  rw [← hcv]
  simp [List.length_append, ringCompressAndEncode10_length, ringCompressAndEncode4_length]

set_option maxRecDepth 100000 in
/-- Witness for `pkeEncrypt_layout`: degenerate sampler and PRF, all-zero
`ek` and `m`. -/
theorem pkeEncrypt_layout_witness :
    ((pkeEncrypt (fun _ _ _ _ => 0) (fun _ _ => List.replicate 128 0)
        (List.replicate 1184 0) (List.replicate 32 0) []).isSome = true ↔
      ((List.replicate 1184 (0 : ℕ)).length = 1184 ∧
        (List.replicate 32 (0 : ℕ)).length = 32)) ∧
    ((pkeEncrypt (fun _ _ _ _ => 0) (fun _ _ => List.replicate 128 0)
        (List.replicate 1184 0) (List.replicate 32 0) []).getD []
      = ringCompressAndEncode10 (pkeEncryptU (fun _ _ _ _ => 0)
          (fun _ _ => List.replicate 128 0) (List.replicate 1184 0) [] 0) ++
        ringCompressAndEncode10 (pkeEncryptU (fun _ _ _ _ => 0)
          (fun _ _ => List.replicate 128 0) (List.replicate 1184 0) [] 1) ++
        ringCompressAndEncode10 (pkeEncryptU (fun _ _ _ _ => 0)
          (fun _ _ => List.replicate 128 0) (List.replicate 1184 0) [] 2) ++
        ringCompressAndEncode4 (pkeEncryptV (fun _ _ => List.replicate 128 0)
          (List.replicate 1184 0) (List.replicate 32 0) []) ∧
      ((pkeEncrypt (fun _ _ _ _ => 0) (fun _ _ => List.replicate 128 0)
          (List.replicate 1184 0) (List.replicate 32 0) []).getD []).length = 1088 ∧
      (∀ i, (ringCompressAndEncode10 (pkeEncryptU (fun _ _ _ _ => 0)
        (fun _ _ => List.replicate 128 0) (List.replicate 1184 0) [] i)).length = 320) ∧
      (ringCompressAndEncode4 (pkeEncryptV (fun _ _ => List.replicate 128 0)
        (List.replicate 1184 0) (List.replicate 32 0) [])).length = 128) :=
  ⟨(pkeEncrypt_layout _ _).1 _ _ _,
   (pkeEncrypt_layout _ _).2 (List.replicate 1184 0) (List.replicate 32 0) []
     ((pkeEncrypt (fun _ _ _ _ => 0) (fun _ _ => List.replicate 128 0)
        (List.replicate 1184 0) (List.replicate 32 0) []).getD [])
     (opt_eq_some_getD _ _
       (((pkeEncrypt_layout _ _).1 _ _ _).mpr ⟨by simp, by simp⟩))⟩


/-!
## K-PKE decryption, KEM decapsulation (C8) and the X-Wing hybrid (C10)
-/

/-- The value `w = v − NTT⁻¹(ŝ⊺ ◦ NTT(u))` computed by `pkeDecrypt`. -/
def pkeDecryptW (dk c : List ℕ) : ℕ → ℕ :=
  polySub ((ringDecodeAndDecompress4 (c.drop 960)).getD (fun _ => 0))
    (inverseNTT ((List.range 3).foldl (fun acc i => polyAdd acc (nttMul
      ((polyByteDecode ((dk.drop (384 * i)).take 384)).getD (fun _ => 0))
      (ntt ((ringDecodeAndDecompress10 ((c.drop (320 * i)).take 320)).getD (fun _ => 0)))))
      (fun _ => 0)))

/-- Go `pkeDecrypt` from mlkem768.go (K-PKE.Decrypt, FIPS 203 (DRAFT)
Algorithm 14): length checks, three d=10 decodes of `u`, a d=4 decode of
`v`, three width-12 decodes of `ŝ`, then `ByteEncode₁(Compress₁(w))`.
The binds reproduce the error flow; on the success path the bound values
are the `.getD` values read by `pkeDecryptW`. -/
def pkeDecrypt (dk c : List ℕ) : Option (List ℕ) :=
  if dk.length ≠ 1152 then none
  else if c.length ≠ 1088 then none
  else
    (ringDecodeAndDecompress10 ((c.drop 0).take 320)).bind fun _ =>
    (ringDecodeAndDecompress10 ((c.drop 320).take 320)).bind fun _ =>
    (ringDecodeAndDecompress10 ((c.drop 640).take 320)).bind fun _ =>
    (ringDecodeAndDecompress4 (c.drop 960)).bind fun _ =>
    (polyByteDecode ((dk.drop 0).take 384)).bind fun _ =>
    (polyByteDecode ((dk.drop 384).take 384)).bind fun _ =>
    (polyByteDecode ((dk.drop 768).take 384)).bind fun _ =>
    some (ringCompressAndEncode1 (pkeDecryptW dk c))

theorem pkeDecrypt_eq {dk c : List ℕ} (hdk : dk.length = 1152) (hc : c.length = 1088) :
    pkeDecrypt dk c = some (ringCompressAndEncode1 (pkeDecryptW dk c)) := by
  unfold pkeDecrypt
  rw [if_neg (by omega), if_neg (by omega)]
  rw [opt_eq_some_getD (ringDecodeAndDecompress10 ((c.drop 0).take 320)) (fun _ => 0)
    (ringDecodeAndDecompress10_isSome (by simp [hc]))]
  rw [opt_eq_some_getD (ringDecodeAndDecompress10 ((c.drop 320).take 320)) (fun _ => 0)
    (ringDecodeAndDecompress10_isSome (by simp [hc]))]
  rw [opt_eq_some_getD (ringDecodeAndDecompress10 ((c.drop 640).take 320)) (fun _ => 0)
    (ringDecodeAndDecompress10_isSome (by simp [hc]))]
  rw [opt_eq_some_getD (ringDecodeAndDecompress4 (c.drop 960)) (fun _ => 0)
    (ringDecodeAndDecompress4_isSome (by simp [hc]))]
  rw [opt_eq_some_getD (polyByteDecode ((dk.drop 0).take 384)) (fun _ => 0)
    ((polyByteDecode_isSome_iff _).mpr (by simp [hdk]))]
  rw [opt_eq_some_getD (polyByteDecode ((dk.drop 384).take 384)) (fun _ => 0)
    ((polyByteDecode_isSome_iff _).mpr (by simp [hdk]))]
  rw [opt_eq_some_getD (polyByteDecode ((dk.drop 768).take 384)) (fun _ => 0)
    ((polyByteDecode_isSome_iff _).mpr (by simp [hdk]))]
  rw [Option.some_bind, Option.some_bind, Option.some_bind, Option.some_bind,
    Option.some_bind, Option.some_bind, Option.some_bind]

/-- Modelled from the spec: the ML-KEM KEM decapsulation (`kemDecaps`;
spec §4.6), which is code of this repository missing from src/ — only its
tests and the X-Wing caller appear there.  Steps: m′ ← K-PKE.Decrypt(dk_PKE,
c); (K′, r′) ← SHA3-512(m′ ‖ h) split 32/32; K̄ ← SHAKE-256(z ‖ c, 32);
c′ ← K-PKE.Encrypt(ek, m′, r′); return K′ if c′ = c else K̄ (the spec's
constant-time select modelled as a pure conditional).  `dk` is laid out as
dk_PKE ‖ ek ‖ H(ek) ‖ z (1152 + 1184 + 32 + 32 = 2400 bytes).  SHA3-512,
SHAKE-256, the XOF and PRF are external-library parameters. -/
def kemDecaps (sha3_512 shake256 : List ℕ → List ℕ)
    (sampleNTT : List ℕ → ℕ → ℕ → ℕ → ℕ) (prf : List ℕ → ℕ → List ℕ)
    (dk c : List ℕ) : Option (List ℕ) :=
  if dk.length ≠ 2400 then none
  else if c.length ≠ 1088 then none
  else
    (pkeDecrypt (dk.take 1152) c).bind fun m1 =>
    (pkeEncrypt sampleNTT prf ((dk.drop 1152).take 1184) m1
      ((sha3_512 (m1 ++ (dk.drop 2336).take 32)).drop 32)).bind fun c1 =>
    some (if c1 = c then (sha3_512 (m1 ++ (dk.drop 2336).take 32)).take 32
      else shake256 (dk.drop 2368 ++ c))

/-- C8: for every 2400-byte decapsulation key and every 1088-byte
ciphertext, decapsulation returns a 32-byte key and never an error: a
malformed ciphertext of the right length lands in the implicit-rejection
branch, still a `some`.  The result is a pure function of `(dk, c)` (and
the hash parameters), so it is deterministic by construction. -/
theorem kemDecaps_total (sha3_512 shake256 : List ℕ → List ℕ)
    (sampleNTT : List ℕ → ℕ → ℕ → ℕ → ℕ) (prf : List ℕ → ℕ → List ℕ)
    (hsha : ∀ x, (sha3_512 x).length = 64)
    (hshake : ∀ x, (shake256 x).length = 32) :
    ∀ dk c : List ℕ, dk.length = 2400 → c.length = 1088 →
      ∃ K, kemDecaps sha3_512 shake256 sampleNTT prf dk c = some K ∧
        K.length = 32 := by
  intro dk c hdk hc
  unfold kemDecaps
  rw [if_neg (by omega), if_neg (by omega)]
  have hd1 : (dk.take 1152).length = 1152 := by simp [hdk]
  rw [pkeDecrypt_eq hd1 hc, Option.some_bind]
  have hm1 : (ringCompressAndEncode1 (pkeDecryptW (dk.take 1152) c)).length = 32 :=
    ringCompressAndEncode1_length _
  have hek : ((dk.drop 1152).take 1184).length = 1184 := by simp [hdk]
  rw [pkeEncrypt_eq hek hm1, Option.some_bind]
  refine ⟨_, rfl, ?_⟩
  split
  · simp [hsha]
  · exact hshake _

set_option maxRecDepth 100000 in
/-- Witness for `kemDecaps_total`: degenerate hashes, all-zero `dk`, `c`. -/
theorem kemDecaps_total_witness :
    ∃ K, kemDecaps (fun _ => List.replicate 64 0) (fun _ => List.replicate 32 0)
      (fun _ _ _ _ => 0) (fun _ _ => List.replicate 128 0)
      (List.replicate 2400 0) (List.replicate 1088 0) = some K ∧ K.length = 32 :=
  kemDecaps_total _ _ _ _ (fun _ => List.length_replicate 64 0)
    (fun _ => List.length_replicate 32 0)
    (List.replicate 2400 0) (List.replicate 1088 0)
    (List.length_replicate 2400 0) (List.length_replicate 1088 0)

/-- Go `xwingLabel` from xwing.go: the raw string `\./` + `/^\`, i.e. the
bytes backslash, dot, slash, slash, caret, backslash. -/
def xwingLabel : List ℕ := [92, 46, 47, 47, 94, 92]

/-- Go `combiner` from xwing.go: SHA3-256 over the streamed concatenation
`ssM ‖ ssX ‖ ctX ‖ pkX ‖ xwingLabel` (SHA3-256 is the external sha3
library, passed as a parameter). -/
def combiner (sha3_256 : List ℕ → List ℕ) (ssM ssX ctX pkX : List ℕ) : List ℕ :=
  sha3_256 (ssM ++ ssX ++ ctX ++ pkX ++ xwingLabel)

/-- Go `Encapsulate` from xwing.go.  The X25519 ephemeral key generation and
ECDH are external (crypto/ecdh, crypto/rand): `ephPub` is the ephemeral
public key `ctX`, and `x25519` computes the shared secret with the
recipient key, returning `none` on NewPublicKey/ECDH errors.  `mlkemEncaps`
is `mlkem768.Encapsulate`, returning (ciphertext, shared secret). -/
def xwingEncapsulate (sha3_256 : List ℕ → List ℕ)
    (mlkemEncaps : List ℕ → Option (List ℕ × List ℕ))
    (x25519 : List ℕ → Option (List ℕ)) (ephPub : List ℕ)
    (encapsulationKey : List ℕ) : Option (List ℕ × List ℕ) :=
  if encapsulationKey.length ≠ 1216 then none
  else
    (x25519 (encapsulationKey.drop 1184)).bind fun ssX =>
    (mlkemEncaps (encapsulationKey.take 1184)).bind fun p =>
    some (p.1 ++ ephPub,
      combiner sha3_256 p.2 ssX ephPub (encapsulationKey.drop 1184))

/-- Go `Decapsulate` from xwing.go: split the 1120-byte ciphertext into
`ctM ‖ ctX`, take `pkX` from the stored public key, decapsulate the ML-KEM
part (`mlkemDecaps`, external as above), run ECDH (`x25519`, closed over
the X25519 private key), and combine. -/
def xwingDecapsulate (sha3_256 : List ℕ → List ℕ)
    (mlkemDecaps : List ℕ → Option (List ℕ))
    (x25519 : List ℕ → Option (List ℕ)) (dkpk : List ℕ)
    (ciphertext : List ℕ) : Option (List ℕ) :=
  if ciphertext.length ≠ 1120 then none
  else
    (mlkemDecaps (ciphertext.take 1088)).bind fun ssM =>
    (x25519 (ciphertext.drop 1088)).bind fun ssX =>
    some (combiner sha3_256 ssM ssX (ciphertext.drop 1088) (dkpk.drop 1184))

/-- C10: both X-Wing operations derive the shared key as
`SHA3-256(ssM ‖ ssX ‖ ctX ‖ pkX ‖ xwingLabel)`, with the label bytes
`\ . / / ^ \`, `ctX` the X25519 ephemeral public key (the ciphertext
tail), and `pkX` the recipient's X25519 public key (the key tail). -/
theorem xwing_key_derivation :
    (∀ (sha : List ℕ → List ℕ) (a b c d : List ℕ),
      combiner sha a b c d = sha (a ++ b ++ c ++ d ++ xwingLabel)) ∧
    xwingLabel = [92, 46, 47, 47, 94, 92] ∧
    (∀ (sha : List ℕ → List ℕ) (mlkE : List ℕ → Option (List ℕ × List ℕ))
      (x25519 : List ℕ → Option (List ℕ)) (ephPub ek ct K : List ℕ),
      xwingEncapsulate sha mlkE x25519 ephPub ek = some (ct, K) →
      ∃ ctM ssM ssX, mlkE (ek.take 1184) = some (ctM, ssM) ∧
        x25519 (ek.drop 1184) = some ssX ∧ ct = ctM ++ ephPub ∧
        K = sha (ssM ++ ssX ++ ephPub ++ ek.drop 1184 ++ xwingLabel)) ∧
    (∀ (sha : List ℕ → List ℕ) (mlkD x25519 : List ℕ → Option (List ℕ))
      (dkpk ct K : List ℕ),
      xwingDecapsulate sha mlkD x25519 dkpk ct = some K →
      ∃ ssM ssX, mlkD (ct.take 1088) = some ssM ∧
        x25519 (ct.drop 1088) = some ssX ∧
        K = sha (ssM ++ ssX ++ ct.drop 1088 ++ dkpk.drop 1184 ++ xwingLabel)) := by
  refine ⟨fun _ _ _ _ _ => rfl, rfl, ?_, ?_⟩
  · intro sha mlkE x25519 ephPub ek ct K h
    unfold xwingEncapsulate at h
    by_cases hlen : ek.length ≠ 1216
    · rw [if_pos hlen] at h
      exact Option.noConfusion h
    · rw [if_neg hlen] at h
      rw [Option.bind_eq_some] at h
      obtain ⟨ssX, hssX, h⟩ := h
      rw [Option.bind_eq_some] at h
      obtain ⟨p, hp, h⟩ := h
      have hinj := Option.some.inj h
      have h1 := congrArg Prod.fst hinj
      have h2 := congrArg Prod.snd hinj
      simp only at h1 h2
      exact ⟨p.1, p.2, ssX, hp, hssX, h1.symm, h2.symm⟩
  · intro sha mlkD x25519 dkpk ct K h
    unfold xwingDecapsulate at h
    by_cases hlen : ct.length ≠ 1120
    · rw [if_pos hlen] at h
      exact Option.noConfusion h
    · rw [if_neg hlen] at h
      rw [Option.bind_eq_some] at h
      obtain ⟨ssM, hssM, h⟩ := h
      rw [Option.bind_eq_some] at h
      obtain ⟨ssX, hssX, h⟩ := h
      exact ⟨ssM, ssX, hssM, hssX, (Option.some.inj h).symm⟩

set_option maxRecDepth 100000 in
/-- Witness for `xwing_key_derivation`: identity hash, constant ML-KEM and
X25519 results. -/
theorem xwing_key_derivation_witness :
    (∃ ctM ssM ssX,
      (fun _ : List ℕ => some (List.replicate 1088 (0 : ℕ), [7]))
          ((List.replicate 1216 (0 : ℕ)).take 1184) = some (ctM, ssM) ∧
      (fun _ : List ℕ => some [9]) ((List.replicate 1216 (0 : ℕ)).drop 1184)
          = some ssX ∧
      ((xwingEncapsulate (fun x => x) (fun _ => some (List.replicate 1088 0, [7]))
          (fun _ => some [9]) [1] (List.replicate 1216 0)).getD ([], [])).1
        = ctM ++ [1] ∧
      ((xwingEncapsulate (fun x => x) (fun _ => some (List.replicate 1088 0, [7]))
          (fun _ => some [9]) [1] (List.replicate 1216 0)).getD ([], [])).2
        = (fun x : List ℕ => x)
            (ssM ++ ssX ++ [1] ++ (List.replicate 1216 (0 : ℕ)).drop 1184 ++ xwingLabel)) ∧
    (∃ ssM ssX,
      (fun _ : List ℕ => some [7]) ((List.replicate 1120 (0 : ℕ)).take 1088)
          = some ssM ∧
      (fun _ : List ℕ => some [9]) ((List.replicate 1120 (0 : ℕ)).drop 1088)
          = some ssX ∧
      (xwingDecapsulate (fun x => x) (fun _ => some [7]) (fun _ => some [9])
          (List.replicate 1216 0) (List.replicate 1120 0)).getD []
        = (fun x : List ℕ => x)
            (ssM ++ ssX ++ (List.replicate 1120 (0 : ℕ)).drop 1088 ++
              (List.replicate 1216 (0 : ℕ)).drop 1184 ++ xwingLabel)) :=
  ⟨xwing_key_derivation.2.2.1 (fun x => x) (fun _ => some (List.replicate 1088 0, [7]))
      (fun _ => some [9]) [1] (List.replicate 1216 0) _ _
      (opt_eq_some_getD _ ([], []) (by rfl)),
   xwing_key_derivation.2.2.2 (fun x => x) (fun _ => some [7]) (fun _ => some [9])
      (List.replicate 1216 0) (List.replicate 1120 0) _
      (opt_eq_some_getD _ [] (by rfl))⟩

end MLKEM
